import Mathlib

/-!
Verification of the percolation estimation project.

The development shallowly embeds the C++ sources:
* `src/Percolation.hpp` — weighted quick-union with path compression,
  specialised into an n×n site-percolation grid with two virtual nodes;
* `src/PercolationQuickFind.hpp` — the quick-find baseline backend;
* `src/PercolationStat.hpp` — the Monte-Carlo threshold estimator.

Machine integers are modelled by `Nat`/`Int` (the program never reaches
`int` overflow in the scenarios the claims quantify over), `std::vector`
by `List`, and code that throws `std::invalid_argument` by
`Except String`.  The mutating recursion of `find` (path compression) is
modelled by fuel-bounded structural recursion returning the updated
parent array; fuel `parent.length` suffices under the acyclicity
invariant proved below.
-/

namespace Perc

/-- Parent-array lookup of the union-find structure (`parent[x]`);
out-of-range indices read as self-roots, which never happens in the
states the code reaches. -/
def parentOf (p : List Nat) (x : Nat) : Nat := p.getD x x

/-- Fuel-bounded root computation: follow parent links until a
self-parent is hit.  `rootOf` supplies fuel `p.length`, which is enough
under the acyclicity invariant. -/
def rootOfAux : Nat → List Nat → Nat → Nat
  | 0, _, x => x
  | fuel+1, p, x => if parentOf p x = x then x else rootOfAux fuel p (parentOf p x)

/-- Root of `x` in parent array `p` (pure observation, no compression). -/
def rootOf (p : List Nat) (x : Nat) : Nat := rootOfAux p.length p x

/-- `Percolation::find` with path compression: the recursion
`if (parent[x] != x) { parent[x] = find(parent[x]); } return parent[x];`
returns the root together with the updated parent array. -/
def findC : Nat → List Nat → Nat → Nat × List Nat
  | 0, p, x => (x, p)
  | fuel+1, p, x =>
    if parentOf p x = x then (x, p)
    else
      let r := findC fuel p (parentOf p x)
      (r.1, r.2.set x r.1)

/-- `find` at the standard fuel. -/
def find (p : List Nat) (x : Nat) : Nat × List Nat := findC p.length p x

/-- `Percolation::unionSites`: weighted union.  If the two roots differ,
the root of the smaller component is re-parented under the root of the
larger one (ties: y's root goes under x's root) and the surviving root's
size is increased by the other component's size. -/
def unionSites (p s : List Nat) (x y : Nat) : List Nat × List Nat :=
  let fx := find p x
  let fy := find fx.2 y
  if fx.1 = fy.1 then (fy.2, s)
  else if s.getD fx.1 0 < s.getD fy.1 0 then
    (fy.2.set fx.1 fy.1, s.set fy.1 (s.getD fy.1 0 + s.getD fx.1 0))
  else
    (fy.2.set fy.1 fx.1, s.set fx.1 (s.getD fx.1 0 + s.getD fy.1 0))

/-- The chain of parent links starting at `x` terminates at the root `r`. -/
inductive RootRel (p : List Nat) : Nat → Nat → Prop
  | root (x : Nat) : parentOf p x = x → RootRel p x x
  | step (x r : Nat) : parentOf p x ≠ x → RootRel p (parentOf p x) r → RootRel p x r

/-- Acyclicity certificate for a parent array: parents stay in range and
an integer ranking strictly drops along every non-trivial parent link. -/
def UFWF (p : List Nat) (d : Nat → Int) : Prop :=
  ∀ x, x < p.length → parentOf p x < p.length ∧ (parentOf p x ≠ x → d (parentOf p x) < d x)

/-- Number of in-range elements whose rank is at most that of `x`;
a termination measure for parent chains. -/
def meas (d : Nat → Int) (p : List Nat) (x : Nat) : Nat :=
  ((Finset.range p.length).filter (fun y => d y ≤ d x)).card

theorem meas_le (d : Nat → Int) (p : List Nat) (x : Nat) : meas d p x ≤ p.length := by
  calc meas d p x ≤ (Finset.range p.length).card :=
        Finset.card_le_card (Finset.filter_subset _ _)
    _ = p.length := Finset.card_range _

theorem meas_pos {d : Nat → Int} {p : List Nat} {x : Nat} (h : x < p.length) :
    0 < meas d p x := by
  apply Finset.card_pos.mpr
  exact ⟨x, Finset.mem_filter.mpr ⟨Finset.mem_range.mpr h, le_refl _⟩⟩

theorem meas_lt {d : Nat → Int} {p : List Nat} (hwf : UFWF p d) {x : Nat}
    (hx : x < p.length) (hne : parentOf p x ≠ x) :
    meas d p (parentOf p x) < meas d p x := by
  have hd : d (parentOf p x) < d x := (hwf x hx).2 hne
  apply Finset.card_lt_card
  rw [Finset.ssubset_def]
  constructor
  · intro y hy
    simp only [Finset.mem_filter, Finset.mem_range] at hy ⊢
    exact ⟨hy.1, le_trans hy.2 (le_of_lt hd)⟩
  · intro hsub
    have hxmem : x ∈ (Finset.range p.length).filter (fun y => d y ≤ d x) :=
      Finset.mem_filter.mpr ⟨Finset.mem_range.mpr hx, le_refl _⟩
    have hmem := hsub hxmem
    simp only [Finset.mem_filter] at hmem
    exact absurd hmem.2 (not_le.mpr hd)

theorem rootRel_total {p : List Nat} {d : Nat → Int} (hwf : UFWF p d) :
    ∀ m x, meas d p x ≤ m → x < p.length → ∃ r, RootRel p x r := by
  intro m
  induction m with
  | zero =>
    intro x hm hx
    exact absurd (meas_pos (d := d) hx) (by omega)
  | succ m ih =>
    intro x hm hx
    by_cases hroot : parentOf p x = x
    · exact ⟨x, .root x hroot⟩
    · have hlt := meas_lt hwf hx hroot
      obtain ⟨r, hr⟩ := ih (parentOf p x) (by omega) (hwf x hx).1
      exact ⟨r, .step x r hroot hr⟩

theorem rootRel_exists {p : List Nat} {d : Nat → Int} (hwf : UFWF p d) {x : Nat}
    (hx : x < p.length) : ∃ r, RootRel p x r :=
  rootRel_total hwf p.length x (meas_le _ _ _) hx

theorem rootRel_unique {p : List Nat} {x r r' : Nat} (h : RootRel p x r) :
    RootRel p x r' → r = r' := by
  induction h with
  | root x hroot =>
    intro h'
    cases h' with
    | root _ _ => rfl
    | step _ _ hne _ => exact absurd hroot hne
  | step x r hne hrec ih =>
    intro h'
    cases h' with
    | root _ hroot => exact absurd hroot hne
    | step _ _ _ hrec' => exact ih hrec'

theorem rootRel_isRoot {p : List Nat} {x r : Nat} (h : RootRel p x r) :
    parentOf p r = r := by
  induction h with
  | root _ h => exact h
  | step _ _ _ _ ih => exact ih

theorem rootRel_lt {p : List Nat} {d : Nat → Int} (hwf : UFWF p d) {x r : Nat}
    (h : RootRel p x r) : x < p.length → r < p.length := by
  induction h with
  | root x _ => exact fun hx => hx
  | step x r hne hrec ih => exact fun hx => ih (hwf x hx).1

theorem rootRel_d_le {p : List Nat} {d : Nat → Int} (hwf : UFWF p d) {x r : Nat}
    (h : RootRel p x r) : x < p.length → d r ≤ d x := by
  induction h with
  | root _ _ => exact fun _ => le_refl _
  | step x r hne hrec ih =>
    intro hx
    exact le_trans (ih (hwf x hx).1) (le_of_lt ((hwf x hx).2 hne))

theorem rootRel_ne {p : List Nat} {d : Nat → Int} (hwf : UFWF p d) {x r : Nat}
    (hx : x < p.length) (hne : parentOf p x ≠ x) (h : RootRel p x r) : r ≠ x := by
  intro heq
  subst heq
  cases h with
  | root _ hroot => exact hne hroot
  | step _ _ _ hrec =>
    have h1 : d r ≤ d (parentOf p r) := rootRel_d_le hwf hrec (hwf r hx).1
    have h2 : d (parentOf p r) < d r := (hwf r hx).2 hne
    omega

theorem rootOfAux_eq {p : List Nat} {d : Nat → Int} (hwf : UFWF p d) :
    ∀ m x r fuel, meas d p x ≤ m → m ≤ fuel → x < p.length → RootRel p x r →
      rootOfAux fuel p x = r := by
  intro m
  induction m with
  | zero =>
    intro x r fuel hm _ hx _
    exact absurd (meas_pos (d := d) hx) (by omega)
  | succ m ih =>
    intro x r fuel hm hf hx hrel
    obtain ⟨f, rfl⟩ : ∃ f, fuel = f + 1 := ⟨fuel - 1, by omega⟩
    by_cases hroot : parentOf p x = x
    · have : r = x := rootRel_unique hrel (.root x hroot)
      simp [rootOfAux, hroot, this]
    · cases hrel with
      | root _ h => exact absurd h hroot
      | step _ _ _ hrec =>
        have hlt := meas_lt hwf hx hroot
        have := ih (parentOf p x) r f (by omega) (by omega) (hwf x hx).1 hrec
        simp [rootOfAux, hroot, this]

theorem rootOf_eq {p : List Nat} {d : Nat → Int} (hwf : UFWF p d) {x r : Nat}
    (hx : x < p.length) (hrel : RootRel p x r) : rootOf p x = r :=
  rootOfAux_eq hwf (meas d p x) x r p.length (le_refl _) (meas_le _ _ _) hx hrel

theorem rootOf_rootRel {p : List Nat} {d : Nat → Int} (hwf : UFWF p d) {x : Nat}
    (hx : x < p.length) : RootRel p x (rootOf p x) := by
  obtain ⟨r, hr⟩ := rootRel_exists hwf hx
  rw [rootOf_eq hwf hx hr]
  exact hr

theorem rootOf_isRoot {p : List Nat} {d : Nat → Int} (hwf : UFWF p d) {x : Nat}
    (hx : x < p.length) : parentOf p (rootOf p x) = rootOf p x :=
  rootRel_isRoot (rootOf_rootRel hwf hx)

theorem rootOf_lt {p : List Nat} {d : Nat → Int} (hwf : UFWF p d) {x : Nat}
    (hx : x < p.length) : rootOf p x < p.length :=
  rootRel_lt hwf (rootOf_rootRel hwf hx) hx

theorem rootOf_root {p : List Nat} {x : Nat} (h : parentOf p x = x) : rootOf p x = x := by
  unfold rootOf
  cases p.length with
  | zero => rfl
  | succ f => simp [rootOfAux, h]

theorem parentOf_set_self {p : List Nat} {i v : Nat} (h : i < p.length) :
    parentOf (p.set i v) i = v := by
  simp [parentOf, List.getD, List.getElem?_set, h]

theorem parentOf_set_ne {p : List Nat} {i v : Nat} (j : Nat) (h : i ≠ j) :
    parentOf (p.set i v) j = parentOf p j := by
  simp [parentOf, List.getD, List.getElem?_set, h]

/-- Re-pointing a non-root `x` directly at its own root `r` preserves every
root-chain fact. -/
theorem rootRel_set {p : List Nat} {d : Nat → Int} (hwf : UFWF p d) {x r : Nat}
    (hx : x < p.length) (hxr : RootRel p x r) (hne : parentOf p x ≠ x) :
    ∀ z w, RootRel p z w → RootRel (p.set x r) z w := by
  have hrne : r ≠ x := rootRel_ne hwf hx hne hxr
  have hroot : parentOf p r = r := rootRel_isRoot hxr
  intro z w h
  induction h with
  | root z hz =>
    have hzx : x ≠ z := fun he => hne (he ▸ hz)
    exact .root z (by rw [parentOf_set_ne z hzx]; exact hz)
  | step z w hzne hrec ih =>
    by_cases hzx : z = x
    · rw [hzx]
      rw [hzx] at hzne hrec
      have hw : w = r := rootRel_unique (RootRel.step x w hzne hrec) hxr
      rw [hw]
      apply RootRel.step
      · rw [parentOf_set_self hx]; exact hrne
      · rw [parentOf_set_self hx]
        exact RootRel.root r (by rw [parentOf_set_ne r (Ne.symm hrne)]; exact hroot)
    · apply RootRel.step
      · rw [parentOf_set_ne z (fun he => hzx he.symm)]; exact hzne
      · rw [parentOf_set_ne z (fun he => hzx he.symm)]; exact ih

/-- Full specification of the compressing `find` recursion: it returns the
root, keeps the array length and the ranking certificate, preserves every
root-chain fact (hence the partition), and only rewrites entries of
non-root nodes on the traversed path. -/
theorem findC_spec {d : Nat → Int} :
    ∀ m {p : List Nat} {x r : Nat} (fuel : Nat), UFWF p d → meas d p x ≤ m → m ≤ fuel →
      x < p.length → RootRel p x r →
      (findC fuel p x).1 = r ∧
      (findC fuel p x).2.length = p.length ∧
      UFWF (findC fuel p x).2 d ∧
      (∀ z w, RootRel p z w → RootRel (findC fuel p x).2 z w) ∧
      (∀ z, parentOf (findC fuel p x).2 z ≠ parentOf p z → d z ≤ d x ∧ parentOf p z ≠ z) := by
  intro m
  induction m with
  | zero =>
    intro p x r fuel hwf hm _ hx _
    exact absurd (meas_pos (d := d) hx) (by omega)
  | succ m ih =>
    intro p x r fuel hwf hm hf hx hrel
    obtain ⟨f, rfl⟩ : ∃ f, fuel = f + 1 := ⟨fuel - 1, by omega⟩
    by_cases hroot : parentOf p x = x
    · have hr : r = x := rootRel_unique hrel (.root x hroot)
      have hunf : findC (f+1) p x = (x, p) := by simp [findC, hroot]
      rw [hunf, hr]
      exact ⟨rfl, rfl, hwf, fun z w h => h, fun z hz => absurd rfl hz⟩
    · have hpx : parentOf p x < p.length := (hwf x hx).1
      have hdpx : d (parentOf p x) < d x := (hwf x hx).2 hroot
      have hrec : RootRel p (parentOf p x) r := by
        cases hrel with
        | root _ h => exact absurd h hroot
        | step _ _ _ h => exact h
      · have hxr : RootRel p x r := hrel
        have hrlt : r < p.length := rootRel_lt hwf hxr hx
        have hmlt := meas_lt hwf hx hroot
        obtain ⟨h1, h2, h3, h4, h5⟩ := ih (x := parentOf p x) (r := r) f hwf
          (by omega) (by omega) hpx hrec
        have hunf : findC (f+1) p x
            = ((findC f p (parentOf p x)).1,
               (findC f p (parentOf p x)).2.set x (findC f p (parentOf p x)).1) := by
          simp [findC, hroot]
        rw [hunf]
        have hxq : x < (findC f p (parentOf p x)).2.length := by rw [h2]; exact hx
        have hqx : parentOf (findC f p (parentOf p x)).2 x = parentOf p x := by
          by_cases hch : parentOf (findC f p (parentOf p x)).2 x = parentOf p x
          · exact hch
          · have := (h5 x hch).1
            omega
        have hqxr : RootRel (findC f p (parentOf p x)).2 x r := h4 x r hxr
        refine ⟨h1, ?_, ?_, ?_, ?_⟩
        · rw [List.length_set]; exact h2
        · rw [h1]
          intro z hz
          rw [List.length_set] at hz
          by_cases hzx : z = x
          · rw [hzx]
            constructor
            · rw [parentOf_set_self hxq, List.length_set, h2]; exact hrlt
            · intro _
              rw [parentOf_set_self hxq]
              have : d r ≤ d (parentOf p x) := rootRel_d_le hwf hrec hpx
              omega
          · rw [parentOf_set_ne z (fun he => hzx he.symm)]
            have := h3 z hz
            constructor
            · rw [List.length_set]; exact this.1
            · exact this.2
        · intro z w hzw
          rw [h1]
          exact rootRel_set h3 hxq hqxr (by rw [hqx]; exact hroot) z w (h4 z w hzw)
        · intro z hzch
          by_cases hzx : z = x
          · rw [hzx]
            exact ⟨le_refl _, hroot⟩
          · rw [parentOf_set_ne z (fun he => hzx he.symm)] at hzch
            have := h5 z hzch
            exact ⟨le_trans this.1 (le_of_lt hdpx), this.2⟩

/-- Specification of `find` at the standard fuel: returns `rootOf`, and the
compressed array represents the same partition with the same roots. -/
theorem find_spec {p : List Nat} {d : Nat → Int} (hwf : UFWF p d) {x : Nat}
    (hx : x < p.length) :
    (find p x).1 = rootOf p x ∧
    (find p x).2.length = p.length ∧
    UFWF (find p x).2 d ∧
    (∀ z, z < p.length → rootOf (find p x).2 z = rootOf p z) ∧
    (∀ z, z < p.length → (parentOf (find p x).2 z = z ↔ parentOf p z = z)) := by
  simp only [find]
  obtain ⟨h1, h2, h3, h4, h5⟩ := findC_spec (d := d) (meas d p x) p.length hwf
    (le_refl _) (meas_le _ _ _) hx (rootOf_rootRel hwf hx)
  refine ⟨h1, h2, h3, ?_, ?_⟩
  · intro z hz
    obtain ⟨w, hw⟩ := rootRel_exists hwf hz
    rw [rootOf_eq hwf hz hw]
    exact rootOf_eq h3 (by rw [h2]; exact hz) (h4 z w hw)
  · intro z hz
    constructor
    · intro hq
      by_contra hne
      have hwz := rootOf_rootRel hwf hz
      have h1' : RootRel (findC p.length p x).2 z (rootOf p z) := h4 z _ hwz
      have h2' : RootRel (findC p.length p x).2 z z := .root z hq
      have : rootOf p z = z := rootRel_unique h1' h2'
      exact (rootRel_ne hwf hz hne hwz) this
    · intro hq
      by_cases hch : parentOf (findC p.length p x).2 z = parentOf p z
      · rw [hch]; exact hq
      · exact absurd hq (h5 z hch).2

theorem getD_set_self {α : Type} {l : List α} {i : Nat} {v dflt : α} (h : i < l.length) :
    (l.set i v).getD i dflt = v := by
  simp [List.getD, List.getElem?_set, h]

theorem getD_set_ne {α : Type} {l : List α} {i : Nat} {v dflt : α} (j : Nat) (h : i ≠ j) :
    (l.set i v).getD j dflt = l.getD j dflt := by
  simp [List.getD, List.getElem?_set, h]

/-- Re-parenting root `a` under root `b` does not disturb chains that end at
a root other than `a`. -/
theorem reparent_rootRel_ne {p : List Nat} {a b : Nat} (ha : parentOf p a = a) :
    ∀ z w, RootRel p z w → w ≠ a → RootRel (p.set a b) z w := by
  intro z w h
  induction h with
  | root z hz =>
    intro hwa
    exact .root z (by rw [parentOf_set_ne z (fun he => hwa he.symm)]; exact hz)
  | step z w hne hrec ih =>
    intro hwa
    have hza : a ≠ z := fun he => hne (he ▸ ha)
    apply RootRel.step
    · rw [parentOf_set_ne z hza]; exact hne
    · rw [parentOf_set_ne z hza]; exact ih hwa

/-- After re-parenting root `a` under root `b`, chains that used to end at `a`
end at `b`. -/
theorem reparent_rootRel_a {p : List Nat} {a b : Nat} (ha : parentOf p a = a)
    (hb : parentOf p b = b) (hab : a ≠ b) (haL : a < p.length) :
    ∀ z w, RootRel p z w → w = a → RootRel (p.set a b) z b := by
  intro z w h
  induction h with
  | root z hz =>
    intro hza
    rw [hza]
    apply RootRel.step
    · rw [parentOf_set_self haL]; exact Ne.symm hab
    · rw [parentOf_set_self haL]
      exact .root b (by rw [parentOf_set_ne b hab]; exact hb)
  | step z w hne hrec ih =>
    intro hwa
    have hza : a ≠ z := fun he => hne (he ▸ ha)
    apply RootRel.step
    · rw [parentOf_set_ne z hza]; exact hne
    · rw [parentOf_set_ne z hza]; exact ih hwa

/-- Ranking used after re-parenting `a` under `b`: `b` drops below `a`. -/
def lowered (d : Nat → Int) (a b : Nat) : Nat → Int :=
  fun z => if z = b then min (d b) (d a - 1) else d z

theorem lowered_b {d : Nat → Int} {a b : Nat} : lowered d a b b = min (d b) (d a - 1) := by
  simp [lowered]

theorem lowered_ne {d : Nat → Int} {a b z : Nat} (h : z ≠ b) : lowered d a b z = d z := by
  simp [lowered, h]

/-- Re-parenting root `a` under a different root `b` keeps the structure
acyclic: lower `b`'s rank below `a`'s. -/
theorem reparent_UFWF {p : List Nat} {d : Nat → Int} (hwf : UFWF p d) {a b : Nat}
    (haL : a < p.length) (hbL : b < p.length)
    (ha : parentOf p a = a) (hb : parentOf p b = b) (hab : a ≠ b) :
    UFWF (p.set a b) (lowered d a b) := by
  intro z hz
  rw [List.length_set] at hz
  by_cases hza : z = a
  · rw [hza, parentOf_set_self haL]
    constructor
    · rw [List.length_set]; exact hbL
    · intro _
      rw [lowered_b, lowered_ne hab]
      have h1 : min (d b) (d a - 1) ≤ d a - 1 := min_le_right _ _
      omega
  · rw [parentOf_set_ne z (fun he => hza he.symm)]
    constructor
    · rw [List.length_set]; exact (hwf z hz).1
    · intro hne2
      have hd : d (parentOf p z) < d z := (hwf z hz).2 hne2
      have hzb : z ≠ b := by
        intro he
        rw [he] at hne2
        exact hne2 hb
      rw [lowered_ne hzb]
      by_cases hpb : parentOf p z = b
      · rw [hpb, lowered_b]
        rw [hpb] at hd
        have h1 : min (d b) (d a - 1) ≤ d b := min_le_left _ _
        omega
      · rw [lowered_ne hpb]
        exact hd

/-- Effect of re-parenting root `a` under root `b` on the root function:
`a`'s old component now answers `b`, all other components are untouched. -/
theorem reparent_rootOf {p : List Nat} {d : Nat → Int} (hwf : UFWF p d) {a b : Nat}
    (haL : a < p.length) (hbL : b < p.length)
    (ha : parentOf p a = a) (hb : parentOf p b = b) (hab : a ≠ b) :
    ∀ z, z < p.length →
      rootOf (p.set a b) z = if rootOf p z = a then b else rootOf p z := by
  have hwf' := reparent_UFWF hwf haL hbL ha hb hab
  intro z hz
  have hzL : z < (p.set a b).length := by rw [List.length_set]; exact hz
  have hw := rootOf_rootRel hwf hz
  by_cases hwa : rootOf p z = a
  · rw [if_pos hwa]
    exact rootOf_eq hwf' hzL (reparent_rootRel_a ha hb hab haL z _ hw hwa)
  · rw [if_neg hwa]
    exact rootOf_eq hwf' hzL (reparent_rootRel_ne ha z _ hw hwa)

/-- Effect of re-parenting root `a` under root `b` on the root predicate. -/
theorem reparent_isRoot {p : List Nat} {a b : Nat} (haL : a < p.length) (hab : a ≠ b) :
    ∀ z, z < p.length →
      (parentOf (p.set a b) z = z ↔ (parentOf p z = z ∧ z ≠ a)) := by
  intro z hz
  by_cases hza : z = a
  · rw [hza, parentOf_set_self haL]
    constructor
    · intro h; exact absurd h.symm hab
    · intro h; exact absurd rfl h.2
  · rw [parentOf_set_ne z (fun he => hza he.symm)]
    constructor
    · intro h; exact ⟨h, hza⟩
    · intro h; exact h.1

/-- Two compressing finds in sequence: return the two roots, preserve the
partition, roots, length, and the ranking certificate. -/
theorem find2_spec {p : List Nat} {d : Nat → Int} (hwf : UFWF p d) {x y : Nat}
    (hx : x < p.length) (hy : y < p.length) :
    (find p x).1 = rootOf p x ∧
    (find (find p x).2 y).1 = rootOf p y ∧
    (find (find p x).2 y).2.length = p.length ∧
    UFWF (find (find p x).2 y).2 d ∧
    (∀ z, z < p.length → rootOf (find (find p x).2 y).2 z = rootOf p z) ∧
    (∀ z, z < p.length → (parentOf (find (find p x).2 y).2 z = z ↔ parentOf p z = z)) := by
  obtain ⟨a1, a2, a3, a4, a5⟩ := find_spec hwf hx
  obtain ⟨b1, b2, b3, b4, b5⟩ := find_spec a3 (x := y) (by rw [a2]; exact hy)
  refine ⟨a1, ?_, ?_, b3, ?_, ?_⟩
  · rw [b1]; exact a4 y hy
  · rw [b2, a2]
  · intro z hz
    rw [b4 z (by rw [a2]; exact hz)]
    exact a4 z hz
  · intro z hz
    rw [b5 z (by rw [a2]; exact hz)]
    exact a5 z hz

/-- `componentSize` invariant: at every root, the `size` array holds the number
of elements of that root's component. -/
def SizeInv (p s : List Nat) : Prop :=
  ∀ r, r < p.length → parentOf p r = r →
    s.getD r 0 = ((Finset.range p.length).filter (fun z => rootOf p z = r)).card

theorem sizeInv_of_same {p q s : List Nat} (hlen : q.length = p.length)
    (hroots : ∀ z, z < p.length → rootOf q z = rootOf p z)
    (hrf : ∀ z, z < p.length → (parentOf q z = z ↔ parentOf p z = z)) :
    SizeInv p s → SizeInv q s := by
  intro h r hr hroot
  rw [hlen] at hr
  have heq : ((Finset.range q.length).filter (fun z => rootOf q z = r))
      = ((Finset.range p.length).filter (fun z => rootOf p z = r)) := by
    rw [hlen]
    apply Finset.filter_congr
    intro z hz
    rw [hroots z (Finset.mem_range.mp hz)]
  rw [heq]
  exact h r hr ((hrf r hr).mp hroot)

/-- The surviving root of `unionSites p s x y` (the root of the larger
component; ties keep x's root). -/
def uWinner (p s : List Nat) (x y : Nat) : Nat :=
  if s.getD (rootOf p x) 0 < s.getD (rootOf p y) 0 then rootOf p y else rootOf p x

/-- The re-parented root of `unionSites p s x y`. -/
def uLoser (p s : List Nat) (x y : Nat) : Nat :=
  if s.getD (rootOf p x) 0 < s.getD (rootOf p y) 0 then rootOf p x else rootOf p y

theorem uwl_cases (p s : List Nat) (x y : Nat) :
    (uWinner p s x y = rootOf p y ∧ uLoser p s x y = rootOf p x) ∨
    (uWinner p s x y = rootOf p x ∧ uLoser p s x y = rootOf p y) := by
  unfold uWinner uLoser
  by_cases h : s.getD (rootOf p x) 0 < s.getD (rootOf p y) 0
  · left; rw [if_pos h, if_pos h]; exact ⟨rfl, rfl⟩
  · right; rw [if_neg h, if_neg h]; exact ⟨rfl, rfl⟩

theorem unionSites_def (p s : List Nat) (x y : Nat) :
    unionSites p s x y =
      if (find p x).1 = (find (find p x).2 y).1 then ((find (find p x).2 y).2, s)
      else if s.getD (find p x).1 0 < s.getD (find (find p x).2 y).1 0 then
        ((find (find p x).2 y).2.set (find p x).1 (find (find p x).2 y).1,
         s.set (find (find p x).2 y).1
           (s.getD (find (find p x).2 y).1 0 + s.getD (find p x).1 0))
      else
        ((find (find p x).2 y).2.set (find (find p x).2 y).1 (find p x).1,
         s.set (find p x).1
           (s.getD (find p x).1 0 + s.getD (find (find p x).2 y).1 0)) := rfl

/-- `unionSites` when the two arguments already share a root: the size array is
untouched, and the parent array still represents the same partition with the
same roots (only path compression happened). -/
theorem unionSites_same_spec {p s : List Nat} {d : Nat → Int} (hwf : UFWF p d) {x y : Nat}
    (hx : x < p.length) (hy : y < p.length) (heq : rootOf p x = rootOf p y) :
    (unionSites p s x y).1.length = p.length ∧
    UFWF (unionSites p s x y).1 d ∧
    (∀ z, z < p.length → rootOf (unionSites p s x y).1 z = rootOf p z) ∧
    (∀ z, z < p.length → (parentOf (unionSites p s x y).1 z = z ↔ parentOf p z = z)) ∧
    (unionSites p s x y).2 = s := by
  obtain ⟨a1, b1, hlen, hwf2, hroots, hrf⟩ := find2_spec hwf hx hy
  have hcond : (find p x).1 = (find (find p x).2 y).1 := by rw [a1, b1]; exact heq
  rw [unionSites_def, if_pos hcond]
  exact ⟨hlen, hwf2, hroots, hrf, rfl⟩

/-- `unionSites` when the two roots differ: the loser root is re-parented under
the winner, the winner's size becomes the sum, components merge accordingly. -/
theorem unionSites_diff_spec {p s : List Nat} {d : Nat → Int} (hwf : UFWF p d) {x y : Nat}
    (hx : x < p.length) (hy : y < p.length) (hne : rootOf p x ≠ rootOf p y) :
    (unionSites p s x y).1.length = p.length ∧
    UFWF (unionSites p s x y).1 (lowered d (uLoser p s x y) (uWinner p s x y)) ∧
    (∀ z, z < p.length → rootOf (unionSites p s x y).1 z =
      if rootOf p z = uLoser p s x y then uWinner p s x y else rootOf p z) ∧
    (∀ z, z < p.length → (parentOf (unionSites p s x y).1 z = z ↔
      (parentOf p z = z ∧ z ≠ uLoser p s x y))) ∧
    parentOf (unionSites p s x y).1 (uLoser p s x y) = uWinner p s x y ∧
    (unionSites p s x y).2 =
      s.set (uWinner p s x y) (s.getD (rootOf p x) 0 + s.getD (rootOf p y) 0) := by
  obtain ⟨a1, b1, hlen, hwf2, hroots, hrf⟩ := find2_spec hwf hx hy
  have hcond : ¬ (find p x).1 = (find (find p x).2 y).1 := by rw [a1, b1]; exact hne
  have hrxL : rootOf p x < p.length := rootOf_lt hwf hx
  have hryL : rootOf p y < p.length := rootOf_lt hwf hy
  have hrxR : parentOf p (rootOf p x) = rootOf p x := rootOf_isRoot hwf hx
  have hryR : parentOf p (rootOf p y) = rootOf p y := rootOf_isRoot hwf hy
  have hrx2 : parentOf (find (find p x).2 y).2 (rootOf p x) = rootOf p x :=
    (hrf _ hrxL).mpr hrxR
  have hry2 : parentOf (find (find p x).2 y).2 (rootOf p y) = rootOf p y :=
    (hrf _ hryL).mpr hryR
  have hrxL2 : rootOf p x < (find (find p x).2 y).2.length := by rw [hlen]; exact hrxL
  have hryL2 : rootOf p y < (find (find p x).2 y).2.length := by rw [hlen]; exact hryL
  rw [unionSites_def, if_neg hcond, a1, b1]
  by_cases hcmp : s.getD (rootOf p x) 0 < s.getD (rootOf p y) 0
  · rw [if_pos hcmp]
    have hW : uWinner p s x y = rootOf p y := by unfold uWinner; rw [if_pos hcmp]
    have hL : uLoser p s x y = rootOf p x := by unfold uLoser; rw [if_pos hcmp]
    rw [hW, hL]
    refine ⟨?_, ?_, ?_, ?_, ?_, ?_⟩
    · rw [List.length_set]; exact hlen
    · exact reparent_UFWF hwf2 hrxL2 hryL2 hrx2 hry2 hne
    · intro z hz
      have hz2 : z < (find (find p x).2 y).2.length := by rw [hlen]; exact hz
      rw [reparent_rootOf hwf2 hrxL2 hryL2 hrx2 hry2 hne z hz2, hroots z hz]
    · intro z hz
      have hz2 : z < (find (find p x).2 y).2.length := by rw [hlen]; exact hz
      rw [reparent_isRoot hrxL2 hne z hz2, hrf z hz]
    · exact parentOf_set_self hrxL2
    · rw [Nat.add_comm]
  · rw [if_neg hcmp]
    have hW : uWinner p s x y = rootOf p x := by unfold uWinner; rw [if_neg hcmp]
    have hL : uLoser p s x y = rootOf p y := by unfold uLoser; rw [if_neg hcmp]
    rw [hW, hL]
    have hne' : rootOf p y ≠ rootOf p x := Ne.symm hne
    refine ⟨?_, ?_, ?_, ?_, ?_, ?_⟩
    · rw [List.length_set]; exact hlen
    · exact reparent_UFWF hwf2 hryL2 hrxL2 hry2 hrx2 hne'
    · intro z hz
      have hz2 : z < (find (find p x).2 y).2.length := by rw [hlen]; exact hz
      rw [reparent_rootOf hwf2 hryL2 hrxL2 hry2 hrx2 hne' z hz2, hroots z hz]
    · intro z hz
      have hz2 : z < (find (find p x).2 y).2.length := by rw [hlen]; exact hz
      rw [reparent_isRoot hryL2 hne' z hz2, hrf z hz]
    · exact parentOf_set_self hryL2
    · rfl

theorem unionSites_parent_length {p s : List Nat} {d : Nat → Int} (hwf : UFWF p d)
    {x y : Nat} (hx : x < p.length) (hy : y < p.length) :
    (unionSites p s x y).1.length = p.length := by
  by_cases hne : rootOf p x = rootOf p y
  · exact (unionSites_same_spec hwf hx hy hne).1
  · exact (unionSites_diff_spec (s := s) hwf hx hy hne).1

theorem unionSites_UFWF {p s : List Nat} {d : Nat → Int} (hwf : UFWF p d)
    {x y : Nat} (hx : x < p.length) (hy : y < p.length) :
    ∃ d', UFWF (unionSites p s x y).1 d' := by
  by_cases hne : rootOf p x = rootOf p y
  · exact ⟨d, (unionSites_same_spec hwf hx hy hne).2.1⟩
  · exact ⟨_, (unionSites_diff_spec (s := s) hwf hx hy hne).2.1⟩

theorem unionSites_size_length {p s : List Nat} {d : Nat → Int} (hwf : UFWF p d)
    {x y : Nat} (hx : x < p.length) (hy : y < p.length) :
    (unionSites p s x y).2.length = s.length := by
  by_cases hne : rootOf p x = rootOf p y
  · rw [(unionSites_same_spec hwf hx hy hne).2.2.2.2]
  · rw [(unionSites_diff_spec hwf hx hy hne).2.2.2.2.2, List.length_set]

/-- Effect of one `unionSites` call on the partition: the components of `x`
and `y` are merged, all other components are untouched. -/
theorem unionSites_linked {p s : List Nat} {d : Nat → Int} (hwf : UFWF p d)
    {x y : Nat} (hx : x < p.length) (hy : y < p.length) :
    ∀ z w, z < p.length → w < p.length →
      (rootOf (unionSites p s x y).1 z = rootOf (unionSites p s x y).1 w ↔
        (rootOf p z = rootOf p w ∨
         ((rootOf p z = rootOf p x ∨ rootOf p z = rootOf p y) ∧
          (rootOf p w = rootOf p x ∨ rootOf p w = rootOf p y)))) := by
  intro z w hz hw
  by_cases hne : rootOf p x = rootOf p y
  · obtain ⟨_, _, hroots, _, _⟩ := unionSites_same_spec (s := s) hwf hx hy hne
    rw [hroots z hz, hroots w hw]
    constructor
    · intro h; exact Or.inl h
    · rintro (h | ⟨hz', hw'⟩)
      · exact h
      · rcases hz' with h1 | h1 <;> rcases hw' with h2 | h2
        · rw [h1, h2]
        · rw [h1, h2, hne]
        · rw [h1, h2, hne]
        · rw [h1, h2]
  · obtain ⟨_, _, hform, _, _, _⟩ := unionSites_diff_spec (s := s) hwf hx hy hne
    rw [hform z hz, hform w hw]
    rcases uwl_cases p s x y with ⟨hW, hL⟩ | ⟨hW, hL⟩ <;> rw [hW, hL] <;>
      split_ifs with h1 h2 <;> omega

/-- `unionSites` preserves the component-size invariant. -/
theorem unionSites_sizeInv {p s : List Nat} {d : Nat → Int} (hwf : UFWF p d)
    {x y : Nat} (hx : x < p.length) (hy : y < p.length) (hs : s.length = p.length)
    (hsi : SizeInv p s) :
    SizeInv (unionSites p s x y).1 (unionSites p s x y).2 := by
  by_cases hne : rootOf p x = rootOf p y
  · obtain ⟨hlen, _, hroots, hrf, hs2⟩ := unionSites_same_spec (s := s) hwf hx hy hne
    rw [hs2]
    exact sizeInv_of_same hlen hroots hrf hsi
  · obtain ⟨hlen, _, hform, hrf, _, hs2⟩ := unionSites_diff_spec (s := s) hwf hx hy hne
    have hrxL : rootOf p x < p.length := rootOf_lt hwf hx
    have hryL : rootOf p y < p.length := rootOf_lt hwf hy
    have hrxR : parentOf p (rootOf p x) = rootOf p x := rootOf_isRoot hwf hx
    have hryR : parentOf p (rootOf p y) = rootOf p y := rootOf_isRoot hwf hy
    have hWL : uWinner p s x y ≠ uLoser p s x y := by
      rcases uwl_cases p s x y with ⟨hW, hL⟩ | ⟨hW, hL⟩ <;> rw [hW, hL]
      · exact Ne.symm hne
      · exact hne
    have hWlen : uWinner p s x y < p.length := by
      rcases uwl_cases p s x y with ⟨hW, _⟩ | ⟨hW, _⟩ <;> rw [hW]
      · exact hryL
      · exact hrxL
    intro r hr hroot
    rw [hlen] at hr
    obtain ⟨hrootp, hrL⟩ := (hrf r hr).mp hroot
    have hfilter : ((Finset.range (unionSites p s x y).1.length).filter
        (fun z => rootOf (unionSites p s x y).1 z = r))
        = ((Finset.range p.length).filter
            (fun z => (if rootOf p z = uLoser p s x y then uWinner p s x y
                       else rootOf p z) = r)) := by
      rw [hlen]
      apply Finset.filter_congr
      intro z hz
      rw [hform z (Finset.mem_range.mp hz)]
    rw [hfilter, hs2]
    by_cases hrW : r = uWinner p s x y
    · rw [hrW, getD_set_self (by rw [hs]; exact hWlen)]
      have hiff : ∀ z ∈ Finset.range p.length,
          ((if rootOf p z = uLoser p s x y then uWinner p s x y else rootOf p z)
            = uWinner p s x y)
          ↔ (rootOf p z = uLoser p s x y ∨ rootOf p z = uWinner p s x y) := by
        intro z _
        by_cases hzl : rootOf p z = uLoser p s x y
        · rw [if_pos hzl]
          constructor
          · intro _; exact Or.inl hzl
          · intro _; rfl
        · rw [if_neg hzl]
          constructor
          · intro h; exact Or.inr h
          · rintro (h | h)
            · exact absurd h hzl
            · exact h
      rw [Finset.filter_congr hiff, Finset.filter_or,
        Finset.card_union_of_disjoint (by
          rw [Finset.disjoint_left]
          intro a ha hb
          simp only [Finset.mem_filter] at ha hb
          exact hWL (hb.2.symm.trans ha.2))]
      rcases uwl_cases p s x y with ⟨hW, hL⟩ | ⟨hW, hL⟩ <;> rw [hW, hL]
      · rw [← hsi (rootOf p x) hrxL hrxR, ← hsi (rootOf p y) hryL hryR]
      · rw [← hsi (rootOf p y) hryL hryR, ← hsi (rootOf p x) hrxL hrxR]
        rw [Nat.add_comm]
    · rw [getD_set_ne r (fun he => hrW he.symm)]
      have hiff : ∀ z ∈ Finset.range p.length,
          ((if rootOf p z = uLoser p s x y then uWinner p s x y else rootOf p z) = r)
          ↔ (rootOf p z = r) := by
        intro z _
        by_cases hzl : rootOf p z = uLoser p s x y
        · rw [if_pos hzl]
          constructor
          · intro h; exact absurd h.symm hrW
          · intro h; exact absurd (h.symm.trans hzl) hrL
        · rw [if_neg hzl]
      rw [Finset.filter_congr hiff]
      exact hsi r hr hrootp

/-! ### The percolation grid (weighted quick-union backend) -/

/-- State of `class Percolation`: side length, row-major openness grid,
union-find parent and size arrays over `n*n + 2` nodes (virtual top at
`n*n`, virtual bottom at `n*n + 1`), and the open-site counter. -/
structure Percolation where
  n : Nat
  grid : List Bool
  parent : List Nat
  size : List Nat
  openSitesCount : Nat
deriving DecidableEq

/-- The freshly constructed state for a positive side length `n`:
all sites blocked, identity parent array, all sizes 1. -/
def initP (n : Nat) : Percolation :=
  { n := n
    grid := List.replicate (n * n) false
    parent := List.range (n * n + 2)
    size := List.replicate (n * n + 2) 1
    openSitesCount := 0 }

/-- `Percolation::Percolation(int n)`: throws `"Grid size must be positive"`
when `n ≤ 0`. -/
def mkPercolation (nI : Int) : Except String Percolation :=
  if nI ≤ 0 then .error "Grid size must be positive"
  else .ok (initP nI.toNat)

/-- Runs a worklist of `unionSites` calls on the parent/size arrays. -/
def unionList (ps : List Nat × List Nat) (pairs : List (Nat × Nat)) :
    List Nat × List Nat :=
  pairs.foldl (fun ps xy => unionSites ps.1 ps.2 xy.1 xy.2) ps

/-- The pairs `Percolation::open(row, col)` unions after marking the site
open: virtual top if in row 0, virtual bottom if in row n−1, then each
in-bounds open neighbor (up, down, left, right), in source order.  `g` is
the grid after the site is marked open, exactly as the C++ reads
`this->grid` through `isOpen` after the assignment `grid[index] = true`. -/
def openPairs (n : Nat) (g : List Bool) (row col : Int) : List (Nat × Nat) :=
  (if row = 0 then [((row * n + col).toNat, n * n)] else []) ++
  (if row = (n : Int) - 1 then [((row * n + col).toNat, n * n + 1)] else []) ++
  (if 0 < row ∧ g.getD (((row - 1) * n + col).toNat) false = true then
    [((row * n + col).toNat, ((row - 1) * n + col).toNat)] else []) ++
  (if row < (n : Int) - 1 ∧ g.getD (((row + 1) * n + col).toNat) false = true then
    [((row * n + col).toNat, ((row + 1) * n + col).toNat)] else []) ++
  (if 0 < col ∧ g.getD ((row * n + (col - 1)).toNat) false = true then
    [((row * n + col).toNat, (row * n + (col - 1)).toNat)] else []) ++
  (if col < (n : Int) - 1 ∧ g.getD ((row * n + (col + 1)).toNat) false = true then
    [((row * n + col).toNat, (row * n + (col + 1)).toNat)] else [])

/-- `Percolation::open(row, col)`: validates, returns unchanged if already
open, else marks the site open, bumps the counter, and unions with the
virtual nodes and open neighbors. -/
def openE (P : Percolation) (row col : Int) : Except String Percolation :=
  if row < 0 ∨ (P.n : Int) ≤ row ∨ col < 0 ∨ (P.n : Int) ≤ col then
    .error "Index out of bounds"
  else if P.grid.getD ((row * P.n + col).toNat) false = true then .ok P
  else
    let g := P.grid.set ((row * P.n + col).toNat) true
    let ps := unionList (P.parent, P.size) (openPairs P.n g row col)
    .ok { P with grid := g, parent := ps.1, size := ps.2,
                 openSitesCount := P.openSitesCount + 1 }

/-- `Percolation::isOpen(row, col)`: validated read of the grid. -/
def isOpenE (P : Percolation) (row col : Int) : Except String Bool :=
  if row < 0 ∨ (P.n : Int) ≤ row ∨ col < 0 ∨ (P.n : Int) ≤ col then
    .error "Index out of bounds"
  else .ok (P.grid.getD ((row * P.n + col).toNat) false)

/-- `Percolation::isFull(row, col)`: validated; false if not open; else
`connected(index, virtualTop)`, whose two `find`s compress paths, so the
(possibly) mutated state is returned alongside the answer. -/
def isFullE (P : Percolation) (row col : Int) : Except String (Bool × Percolation) :=
  if row < 0 ∨ (P.n : Int) ≤ row ∨ col < 0 ∨ (P.n : Int) ≤ col then
    .error "Index out of bounds"
  else if P.grid.getD ((row * P.n + col).toNat) false = true then
    let f1 := find P.parent ((row * P.n + col).toNat)
    let f2 := find f1.2 (P.n * P.n)
    .ok (decide (f1.1 = f2.1), { P with parent := f2.2 })
  else .ok (false, P)

/-- `Percolation::percolates()`: `connected(virtualTop, virtualBottom)`;
the two `find`s compress paths, so the mutated state is returned. -/
def percolatesE (P : Percolation) : Bool × Percolation :=
  let f1 := find P.parent (P.n * P.n)
  let f2 := find f1.2 (P.n * P.n + 1)
  (decide (f1.1 = f2.1), { P with parent := f2.2 })

/-- `Percolation::numberOfOpenSites()`. -/
def numberOfOpenSites (P : Percolation) : Nat := P.openSitesCount

/-! ### Spec-level connectivity on the grid -/

/-- Site `i` is open in grid `g`. -/
def siteOpen (g : List Bool) (i : Nat) : Prop := g.getD i false = true

instance (g : List Bool) (i : Nat) : Decidable (siteOpen g i) := by
  unfold siteOpen; infer_instance

/-- Axis adjacency of two row-major indices in an n×n grid. -/
def adjacent (n a b : Nat) : Prop :=
  (a / n = b / n ∧ (a = b + 1 ∨ b = a + 1)) ∨ (a % n = b % n ∧ (a = b + n ∨ b = a + n))

instance (n a b : Nat) : Decidable (adjacent n a b) := by
  unfold adjacent; infer_instance

/-- Edge between two open, axis-adjacent sites. -/
def adjE (g : List Bool) (n : Nat) (a b : Nat) : Prop :=
  a < n * n ∧ b < n * n ∧ siteOpen g a ∧ siteOpen g b ∧ adjacent n a b

instance (g : List Bool) (n a b : Nat) : Decidable (adjE g n a b) := by
  unfold adjE; infer_instance

/-- Edge from an open top-row site `a` to the virtual top node `n*n`. -/
def topE (g : List Bool) (n : Nat) (a b : Nat) : Prop :=
  a < n * n ∧ a / n = 0 ∧ siteOpen g a ∧ b = n * n

/-- Edge from an open bottom-row site `a` to the virtual bottom node `n*n+1`. -/
def botE (g : List Bool) (n : Nat) (a b : Nat) : Prop :=
  a < n * n ∧ a / n = n - 1 ∧ siteOpen g a ∧ b = n * n + 1

/-- All edges `open` ever unions, in one orientation. -/
def E0 (g : List Bool) (n : Nat) (a b : Nat) : Prop :=
  adjE g n a b ∨ topE g n a b ∨ botE g n a b

/-- Symmetrised edge relation. -/
def Esym (g : List Bool) (n : Nat) (a b : Nat) : Prop := E0 g n a b ∨ E0 g n b a

/-- Connectivity generated by the open-site and boundary edges: the intended
meaning of the union-find partition. -/
def ECl (g : List Bool) (n : Nat) (a b : Nat) : Prop :=
  Relation.ReflTransGen (Esym g n) a b

theorem e0_open {g : List Bool} {n a b : Nat} (h : E0 g n a b) : siteOpen g a := by
  rcases h with h | h | h
  · exact h.2.2.1
  · exact h.2.2.1
  · exact h.2.2.1

theorem e0_lt {g : List Bool} {n a b : Nat} (h : E0 g n a b) :
    a < n * n + 2 ∧ b < n * n + 2 := by
  rcases h with ⟨h1, h2, -⟩ | ⟨h1, -, -, h4⟩ | ⟨h1, -, -, h4⟩
  · exact ⟨by omega, by omega⟩
  · exact ⟨by omega, by omega⟩
  · exact ⟨by omega, by omega⟩

theorem esym_lt {g : List Bool} {n a b : Nat} (h : Esym g n a b) :
    a < n * n + 2 ∧ b < n * n + 2 := by
  rcases h with h | h
  · exact e0_lt h
  · exact ⟨(e0_lt h).2, (e0_lt h).1⟩

theorem esym_symm {g : List Bool} {n : Nat} : Symmetric (Esym g n) := by
  intro a b h
  rcases h with h | h
  · exact Or.inr h
  · exact Or.inl h

theorem ecl_symm {g : List Bool} {n a b : Nat} (h : ECl g n a b) : ECl g n b a :=
  Relation.ReflTransGen.symmetric esym_symm h

theorem ecl_trans {g : List Bool} {n a b c : Nat} (h1 : ECl g n a b)
    (h2 : ECl g n b c) : ECl g n a c :=
  Relation.ReflTransGen.trans h1 h2

/-! ### The reachable-state invariant -/

/-- Global invariant of a reachable `Percolation` state: shape facts, a
ranking certificate for the parent forest, the partition/connectivity
correspondence, and the component-size invariant. -/
structure Inv (P : Percolation) : Prop where
  npos : 0 < P.n
  glen : P.grid.length = P.n * P.n
  plen : P.parent.length = P.n * P.n + 2
  slen : P.size.length = P.n * P.n + 2
  wf : ∃ d, UFWF P.parent d
  part : ∀ x y, x < P.n * P.n + 2 → y < P.n * P.n + 2 →
    (rootOf P.parent x = rootOf P.parent y ↔ ECl P.grid P.n x y)
  sizes : SizeInv P.parent P.size

theorem parentOf_range (N x : Nat) : parentOf (List.range N) x = x := by
  by_cases h : x < N
  · simp [parentOf, List.getD, List.getElem?_range, h]
  · have hnone : (List.range N)[x]? = none :=
      List.getElem?_eq_none (by rw [List.length_range]; omega)
    simp [parentOf, List.getD, hnone]

theorem siteOpen_replicate (m i : Nat) : ¬ siteOpen (List.replicate m false) i := by
  intro h
  unfold siteOpen at h
  by_cases hi : i < m
  · simp [List.getD, List.getElem?_replicate, hi] at h
  · rw [List.getD_eq_default] at h
    · exact absurd h (by simp)
    · rw [List.length_replicate]; omega

theorem ecl_init {n a b : Nat} :
    ECl (List.replicate (n * n) false) n a b ↔ a = b := by
  constructor
  · intro h
    induction h with
    | refl => rfl
    | tail hstep he ih =>
      exfalso
      rcases he with he | he
      · exact siteOpen_replicate _ _ (e0_open he)
      · exact siteOpen_replicate _ _ (e0_open he)
  · rintro rfl
    exact Relation.ReflTransGen.refl

theorem initP_inv {n : Nat} (hn : 0 < n) : Inv (initP n) := by
  have hplen : (initP n).parent.length = n * n + 2 := by
    simp [initP]
  refine ⟨hn, by simp [initP], hplen, by simp [initP], ⟨fun _ => 0, ?_⟩, ?_, ?_⟩
  · intro x hx
    rw [hplen] at hx
    rw [show (initP n).parent = List.range (n * n + 2) from rfl, parentOf_range]
    constructor
    · rw [List.length_range]; exact hx
    · intro h; exact absurd rfl h
  · intro x y hx hy
    rw [show (initP n).parent = List.range (n * n + 2) from rfl,
      rootOf_root (parentOf_range _ x), rootOf_root (parentOf_range _ y)]
    exact (ecl_init (n := n) (a := x) (b := y)).symm
  · intro r hr hroot
    rw [hplen] at hr
    have hfilter : ((Finset.range (initP n).parent.length).filter
        (fun z => rootOf (initP n).parent z = r)) = {r} := by
      have h1 : ∀ z ∈ Finset.range (initP n).parent.length,
          (rootOf (initP n).parent z = r) ↔ (z = r) := by
        intro z _
        rw [show (initP n).parent = List.range (n * n + 2) from rfl,
          rootOf_root (parentOf_range _ z)]
      rw [Finset.filter_congr h1, hplen]
      rw [Finset.filter_eq']
      rw [if_pos (Finset.mem_range.mpr hr)]
    rw [hfilter]
    simp [initP, List.getD, List.getElem?_replicate, hr]

/-! ### Row-major index arithmetic -/

theorem idx_div {n ri ci : Nat} (hc : ci < n) : (ri * n + ci) / n = ri := by
  have hn : 0 < n := by omega
  rw [Nat.mul_comm, Nat.mul_add_div hn, Nat.div_eq_of_lt hc, Nat.add_zero]

theorem idx_mod {n ri ci : Nat} (hc : ci < n) : (ri * n + ci) % n = ci := by
  rw [Nat.add_comm, Nat.add_mul_mod_self_right, Nat.mod_eq_of_lt hc]

theorem idx_lt {n ri ci : Nat} (hr : ri < n) (hc : ci < n) : ri * n + ci < n * n := by
  have h1 : (ri + 1) * n ≤ n * n := by
    rw [Nat.mul_comm n n]
    exact Nat.mul_le_mul_right n (by omega)
  have h2 : ri * n + n = (ri + 1) * n := by ring
  omega

theorem idx_decomp {n a : Nat} (hn : 0 < n) (ha : a < n * n) :
    a = (a / n) * n + (a % n) ∧ a / n < n ∧ a % n < n := by
  have h1 := Nat.div_add_mod a n
  have h1' : (a / n) * n + a % n = a := by rw [Nat.mul_comm] at h1; exact h1
  have h2 : a % n < n := Nat.mod_lt a hn
  refine ⟨by omega, ?_, h2⟩
  by_contra hge
  have h3 : n * n ≤ n * (a / n) := Nat.mul_le_mul_left n (by omega)
  omega

theorem adjacent_irrefl {n a : Nat} (hn : 0 < n) : ¬ adjacent n a a := by
  unfold adjacent
  omega

/-- Characterisation of the sites adjacent to `(ri, ci)`: exactly the four
axis neighbors that stay inside the grid. -/
theorem adjacent_idx_iff {n ri ci : Nat} (hr : ri < n) (hc : ci < n) (b : Nat)
    (hb : b < n * n) :
    adjacent n (ri * n + ci) b ↔
      ((0 < ri ∧ b = (ri - 1) * n + ci) ∨
       (ri + 1 < n ∧ b = (ri + 1) * n + ci) ∨
       (0 < ci ∧ b = ri * n + (ci - 1)) ∨
       (ci + 1 < n ∧ b = ri * n + (ci + 1))) := by
  have hn : 0 < n := by omega
  constructor
  · intro hadj
    rcases hadj with ⟨hdiv, hpm⟩ | ⟨hmod, hpm⟩
    · rw [idx_div hc] at hdiv
      rcases hpm with h | h
      · by_cases hci : ci = 0
        · exfalso
          rw [hci] at h
          by_cases hri : ri = 0
          · have hz : ri * n = 0 := by rw [hri]; ring
            omega
          · have h1 : (ri - 1) * n + n = ri * n := by
              obtain ⟨k, rfl⟩ : ∃ k, ri = k + 1 := ⟨ri - 1, by omega⟩
              simp [Nat.add_sub_cancel]
              ring
            have hb2 : b = (ri - 1) * n + (n - 1) := by omega
            rw [hb2, idx_div (by omega)] at hdiv
            omega
        · refine Or.inr (Or.inr (Or.inl ⟨by omega, by omega⟩))
      · by_cases hcn : ci + 1 < n
        · exact Or.inr (Or.inr (Or.inr ⟨hcn, by omega⟩))
        · exfalso
          have hc1 : ci + 1 = n := by omega
          have h1 : ri * n + n = (ri + 1) * n := by ring
          have hb2 : b = (ri + 1) * n + 0 := by omega
          rw [hb2, idx_div hn] at hdiv
          omega
    · rw [idx_mod hc] at hmod
      rcases hpm with h | h
      · by_cases hri : ri = 0
        · exfalso
          have hz : ri * n = 0 := by rw [hri]; ring
          omega
        · have h1 : (ri - 1) * n + n = ri * n := by
            obtain ⟨k, rfl⟩ : ∃ k, ri = k + 1 := ⟨ri - 1, by omega⟩
            simp [Nat.add_sub_cancel]
            ring
          exact Or.inl ⟨by omega, by omega⟩
      · have h1 : (ri + 1) * n = ri * n + n := by ring
        have hrn : ri + 1 < n := by
          by_contra hge
          have h3 : n * n ≤ (ri + 1) * n := Nat.mul_le_mul_right n (by omega)
          omega
        exact Or.inr (Or.inl ⟨hrn, by omega⟩)
  · intro hcase
    rcases hcase with ⟨hri, rfl⟩ | ⟨hrn, rfl⟩ | ⟨hci, rfl⟩ | ⟨hcn, rfl⟩
    · have h1 : (ri - 1) * n + n = ri * n := by
        obtain ⟨k, rfl⟩ : ∃ k, ri = k + 1 := ⟨ri - 1, by omega⟩
        simp [Nat.add_sub_cancel]
        ring
      exact Or.inr ⟨by rw [idx_mod hc, idx_mod hc], Or.inl (by omega)⟩
    · have h1 : (ri + 1) * n = ri * n + n := by ring
      exact Or.inr ⟨by rw [idx_mod hc, idx_mod hc], Or.inr (by omega)⟩
    · exact Or.inl ⟨by rw [idx_div hc, idx_div (by omega)], Or.inl (by omega)⟩
    · exact Or.inl ⟨by rw [idx_div hc, idx_div (by omega)], Or.inr (by omega)⟩

/-! ### Merging partitions edge by edge -/

/-- Adding one (bidirectional) edge to a generating relation. -/
def addE (S : Nat → Nat → Prop) (a b : Nat) (u v : Nat) : Prop :=
  S u v ∨ (u = a ∧ v = b) ∨ (u = b ∧ v = a)

/-- Adding a worklist of (bidirectional) edges to a generating relation. -/
def addEdges (S : Nat → Nat → Prop) (L : List (Nat × Nat)) (u v : Nat) : Prop :=
  S u v ∨ (u, v) ∈ L ∨ (v, u) ∈ L

theorem rtg_lift {A B : Nat → Nat → Prop}
    (h : ∀ u v, A u v → Relation.ReflTransGen B u v) :
    ∀ u v, Relation.ReflTransGen A u v → Relation.ReflTransGen B u v := by
  intro u v huv
  induction huv with
  | refl => exact .refl
  | tail _ he ih => exact ih.trans (h _ _ he)

theorem rtg_congr {A B : Nat → Nat → Prop} (h : ∀ u v, A u v ↔ B u v) :
    ∀ u v, Relation.ReflTransGen A u v ↔ Relation.ReflTransGen B u v := by
  intro u v
  constructor
  · exact rtg_lift (fun u v ha => Relation.ReflTransGen.single ((h u v).mp ha)) u v
  · exact rtg_lift (fun u v hb => Relation.ReflTransGen.single ((h u v).mpr hb)) u v

theorem rtg_mono_iff {A B : Nat → Nat → Prop}
    (hab : ∀ u v, A u v → Relation.ReflTransGen B u v)
    (hba : ∀ u v, B u v → Relation.ReflTransGen A u v) :
    ∀ u v, Relation.ReflTransGen A u v ↔ Relation.ReflTransGen B u v :=
  fun u v => ⟨rtg_lift hab u v, rtg_lift hba u v⟩

theorem addEdges_nil (S : Nat → Nat → Prop) (u v : Nat) : addEdges S [] u v ↔ S u v := by
  simp [addEdges]

theorem addEdges_cons (S : Nat → Nat → Prop) (a b : Nat) (L : List (Nat × Nat)) (u v : Nat) :
    addEdges (addE S a b) L u v ↔ addEdges S ((a, b) :: L) u v := by
  simp only [addEdges, addE, List.mem_cons, Prod.ext_iff]
  tauto

/-- If a root map `ρ` realises the partition generated by `S`, and `ρ'` is `ρ`
with the classes of `a` and `b` merged, then `ρ'` realises the partition
generated by `S` plus the edge `{a, b}`. -/
theorem merge_partition {S : Nat → Nat → Prop} {ρ ρ' : Nat → Nat} {M a b : Nat}
    (hS : ∀ u v, S u v → u < M ∧ v < M) (ha : a < M) (hb : b < M)
    (hpart : ∀ u v, u < M → v < M → (ρ u = ρ v ↔ Relation.ReflTransGen S u v))
    (hmerge : ∀ u v, u < M → v < M →
      (ρ' u = ρ' v ↔ (ρ u = ρ v ∨ ((ρ u = ρ a ∨ ρ u = ρ b) ∧ (ρ v = ρ a ∨ ρ v = ρ b))))) :
    ∀ u v, u < M → v < M →
      (ρ' u = ρ' v ↔ Relation.ReflTransGen (addE S a b) u v) := by
  have conn : ∀ w, w < M → (ρ w = ρ a ∨ ρ w = ρ b) →
      Relation.ReflTransGen (addE S a b) w a := by
    intro w hw hcase
    rcases hcase with h | h
    · exact Relation.ReflTransGen.mono (fun x y hxy => Or.inl hxy)
        ((hpart w a hw ha).mp h)
    · have h1 : Relation.ReflTransGen (addE S a b) w b :=
        Relation.ReflTransGen.mono (fun x y hxy => Or.inl hxy) ((hpart w b hw hb).mp h)
      exact h1.trans (Relation.ReflTransGen.single (Or.inr (Or.inr ⟨rfl, rfl⟩)))
  have connRev : ∀ w, w < M → (ρ w = ρ a ∨ ρ w = ρ b) →
      Relation.ReflTransGen (addE S a b) a w := by
    intro w hw hcase
    rcases hcase with h | h
    · exact Relation.ReflTransGen.mono (fun x y hxy => Or.inl hxy)
        ((hpart a w ha hw).mp h.symm)
    · have h1 : Relation.ReflTransGen (addE S a b) b w :=
        Relation.ReflTransGen.mono (fun x y hxy => Or.inl hxy)
          ((hpart b w hb hw).mp h.symm)
      exact (Relation.ReflTransGen.single
        (Or.inr (Or.inl ⟨rfl, rfl⟩)) : Relation.ReflTransGen (addE S a b) a b).trans h1
  intro u v hu hv
  rw [hmerge u v hu hv]
  constructor
  · rintro (h | ⟨h1, h2⟩)
    · exact Relation.ReflTransGen.mono (fun x y hxy => Or.inl hxy) ((hpart u v hu hv).mp h)
    · exact (conn u hu h1).trans (connRev v hv h2)
  · intro h
    suffices hsuf : ∀ v', Relation.ReflTransGen (addE S a b) u v' → v' < M →
        (ρ u = ρ v' ∨ ((ρ u = ρ a ∨ ρ u = ρ b) ∧ (ρ v' = ρ a ∨ ρ v' = ρ b))) by
      exact hsuf v h hv
    intro v' hrt
    induction hrt with
    | refl => intro _; exact Or.inl rfl
    | tail hrt' he ih =>
      intro hw
      rcases he with hS' | ⟨hca, hcb⟩ | ⟨hcb, hca⟩
      · have hcM := (hS _ _ hS').1
        have hwM := (hS _ _ hS').2
        have hcw : ρ _ = ρ _ := (hpart _ _ hcM hwM).mpr
          (Relation.ReflTransGen.single hS')
        rcases ih hcM with h | ⟨h1, h2⟩
        · exact Or.inl (h.trans hcw)
        · refine Or.inr ⟨h1, ?_⟩
          rcases h2 with h2 | h2
          · exact Or.inl (hcw.symm.trans h2)
          · exact Or.inr (hcw.symm.trans h2)
      · subst hca
        subst hcb
        rcases ih ha with h | ⟨h1, _⟩
        · exact Or.inr ⟨Or.inl h, Or.inr rfl⟩
        · exact Or.inr ⟨h1, Or.inr rfl⟩
      · subst hca
        subst hcb
        rcases ih hb with h | ⟨h1, _⟩
        · exact Or.inr ⟨Or.inr h, Or.inl rfl⟩
        · exact Or.inr ⟨h1, Or.inl rfl⟩

/-- Running a worklist of unions realises exactly the partition generated by
the starting relation plus all worklist edges, and preserves every structural
invariant. -/
theorem unionList_spec :
    ∀ (L : List (Nat × Nat)) (p s : List Nat) (S : Nat → Nat → Prop),
      (∃ d, UFWF p d) →
      s.length = p.length →
      (∀ xy ∈ L, xy.1 < p.length ∧ xy.2 < p.length) →
      (∀ u v, S u v → u < p.length ∧ v < p.length) →
      (∀ u v, u < p.length → v < p.length →
        (rootOf p u = rootOf p v ↔ Relation.ReflTransGen S u v)) →
      SizeInv p s →
      (unionList (p, s) L).1.length = p.length ∧
      (unionList (p, s) L).2.length = p.length ∧
      (∃ d', UFWF (unionList (p, s) L).1 d') ∧
      SizeInv (unionList (p, s) L).1 (unionList (p, s) L).2 ∧
      (∀ u v, u < p.length → v < p.length →
        (rootOf (unionList (p, s) L).1 u = rootOf (unionList (p, s) L).1 v ↔
          Relation.ReflTransGen (addEdges S L) u v)) := by
  intro L
  induction L with
  | nil =>
    intro p s S hwf hs hL hSb hpart hsi
    refine ⟨rfl, hs, hwf, hsi, ?_⟩
    intro u v hu hv
    show rootOf p u = rootOf p v ↔ _
    rw [hpart u v hu hv]
    exact rtg_congr (fun u v => (addEdges_nil S u v).symm) u v
  | cons hd tl ih =>
    intro p s S hwf hs hL hSb hpart hsi
    obtain ⟨d, hwfd⟩ := hwf
    have hx : hd.1 < p.length := (hL hd (List.mem_cons_self hd tl)).1
    have hy : hd.2 < p.length := (hL hd (List.mem_cons_self hd tl)).2
    have hstep : unionList (p, s) (hd :: tl)
        = unionList (unionSites p s hd.1 hd.2) tl := by
      simp [unionList, List.foldl]
    rw [hstep]
    have hlen1 : (unionSites p s hd.1 hd.2).1.length = p.length :=
      unionSites_parent_length hwfd hx hy
    have hslen1 : (unionSites p s hd.1 hd.2).2.length = p.length := by
      rw [unionSites_size_length hwfd hx hy, hs]
    have hwf1 : ∃ d', UFWF (unionSites p s hd.1 hd.2).1 d' :=
      unionSites_UFWF hwfd hx hy
    have hsi1 : SizeInv (unionSites p s hd.1 hd.2).1 (unionSites p s hd.1 hd.2).2 :=
      unionSites_sizeInv hwfd hx hy hs hsi
    have hpart1 : ∀ u v, u < (unionSites p s hd.1 hd.2).1.length →
        v < (unionSites p s hd.1 hd.2).1.length →
        (rootOf (unionSites p s hd.1 hd.2).1 u = rootOf (unionSites p s hd.1 hd.2).1 v ↔
          Relation.ReflTransGen (addE S hd.1 hd.2) u v) := by
      intro u v hu hv
      rw [hlen1] at hu hv
      exact merge_partition hSb hx hy hpart (unionSites_linked hwfd hx hy) u v hu hv
    have hL1 : ∀ xy ∈ tl, xy.1 < (unionSites p s hd.1 hd.2).1.length ∧
        xy.2 < (unionSites p s hd.1 hd.2).1.length := by
      intro xy hxy
      rw [hlen1]
      exact hL xy (List.mem_cons_of_mem hd hxy)
    have hSb1 : ∀ u v, addE S hd.1 hd.2 u v →
        u < (unionSites p s hd.1 hd.2).1.length ∧
        v < (unionSites p s hd.1 hd.2).1.length := by
      intro u v huv
      rw [hlen1]
      rcases huv with h | ⟨rfl, rfl⟩ | ⟨rfl, rfl⟩
      · exact hSb u v h
      · exact ⟨hx, hy⟩
      · exact ⟨hy, hx⟩
    have hslen1' : (unionSites p s hd.1 hd.2).2.length
        = (unionSites p s hd.1 hd.2).1.length := by rw [hslen1, hlen1]
    have hmain := ih (unionSites p s hd.1 hd.2).1 (unionSites p s hd.1 hd.2).2
      (addE S hd.1 hd.2) hwf1 hslen1' hL1 hSb1
      (fun u v hu hv => hpart1 u v hu hv) hsi1
    rw [Prod.mk.eta] at hmain
    obtain ⟨m1, m2, m3, m4, m5⟩ := hmain
    refine ⟨by rw [m1, hlen1], by rw [m2, hlen1], m3, m4, ?_⟩
    intro u v hu hv
    rw [m5 u v (by rw [hlen1]; exact hu) (by rw [hlen1]; exact hv)]
    exact rtg_congr (addEdges_cons S hd.1 hd.2 tl) u v

/-! ### `open` in natural-number coordinates -/

theorem valid_coords {n : Nat} {row col : Int}
    (h : ¬(row < 0 ∨ (n : Int) ≤ row ∨ col < 0 ∨ (n : Int) ≤ col)) :
    ∃ ri ci : Nat, row = (ri : Int) ∧ col = (ci : Int) ∧ ri < n ∧ ci < n := by
  push_neg at h
  obtain ⟨h1, h2, h3, h4⟩ := h
  exact ⟨row.toNat, col.toNat, (Int.toNat_of_nonneg h1).symm,
    (Int.toNat_of_nonneg h3).symm, by omega, by omega⟩

theorem cast_idx (n a b : Nat) : (((a : Int)) * n + b).toNat = a * n + b := by
  have h : ((a : Int)) * n + b = ((a * n + b : Nat) : Int) := by push_cast; ring
  rw [h, Int.toNat_natCast]

/-- `openPairs` with the validated coordinates written as naturals. -/
def openPairsN (n : Nat) (g : List Bool) (ri ci : Nat) : List (Nat × Nat) :=
  (if ri = 0 then [(ri * n + ci, n * n)] else []) ++
  (if ri = n - 1 then [(ri * n + ci, n * n + 1)] else []) ++
  (if 0 < ri ∧ siteOpen g ((ri - 1) * n + ci) then
    [(ri * n + ci, (ri - 1) * n + ci)] else []) ++
  (if ri + 1 < n ∧ siteOpen g ((ri + 1) * n + ci) then
    [(ri * n + ci, (ri + 1) * n + ci)] else []) ++
  (if 0 < ci ∧ siteOpen g (ri * n + (ci - 1)) then
    [(ri * n + ci, ri * n + (ci - 1))] else []) ++
  (if ci + 1 < n ∧ siteOpen g (ri * n + (ci + 1)) then
    [(ri * n + ci, ri * n + (ci + 1))] else [])

theorem openPairs_eq_natural {n : Nat} (g : List Bool) {ri ci : Nat}
    (hr : ri < n) (hc : ci < n) :
    openPairs n g (ri : Int) (ci : Int) = openPairsN n g ri ci := by
  have hn : 0 < n := by omega
  have e0 : (((ri : Int)) * n + ci).toNat = ri * n + ci := cast_idx n ri ci
  have s1 : (if (ri : Int) = 0 then [((((ri : Int)) * n + ci).toNat, n * n)] else [])
      = (if ri = 0 then [(ri * n + ci, n * n)] else []) := by
    by_cases h : ri = 0
    · rw [if_pos (by omega : (ri : Int) = 0), if_pos h, e0]
    · rw [if_neg (by omega : ¬ (ri : Int) = 0), if_neg h]
  have s2 : (if (ri : Int) = (n : Int) - 1
        then [((((ri : Int)) * n + ci).toNat, n * n + 1)] else [])
      = (if ri = n - 1 then [(ri * n + ci, n * n + 1)] else []) := by
    by_cases h : ri = n - 1
    · rw [if_pos (by omega : (ri : Int) = (n : Int) - 1), if_pos h, e0]
    · rw [if_neg (by omega : ¬ (ri : Int) = (n : Int) - 1), if_neg h]
  have s3 : (if 0 < (ri : Int) ∧ g.getD ((((ri : Int)) - 1) * n + ci).toNat false = true
        then [((((ri : Int)) * n + ci).toNat, ((((ri : Int)) - 1) * n + ci).toNat)] else [])
      = (if 0 < ri ∧ siteOpen g ((ri - 1) * n + ci)
         then [(ri * n + ci, (ri - 1) * n + ci)] else []) := by
    by_cases h : 0 < ri ∧ siteOpen g ((ri - 1) * n + ci)
    · have e1 : ((ri : Int) - 1) = ((ri - 1 : Nat) : Int) := by omega
      have e2 : ((((ri : Int)) - 1) * n + ci).toNat = (ri - 1) * n + ci := by
        rw [e1, cast_idx]
      rw [if_pos ⟨by omega, by rw [e2]; exact h.2⟩, if_pos h, e0, e2]
    · rw [if_neg ?_, if_neg h]
      intro hcon
      obtain ⟨h1, h2⟩ := hcon
      have e1 : ((ri : Int) - 1) = ((ri - 1 : Nat) : Int) := by omega
      rw [e1, cast_idx] at h2
      exact h ⟨by omega, h2⟩
  have s4 : (if (ri : Int) < (n : Int) - 1 ∧
          g.getD ((((ri : Int)) + 1) * n + ci).toNat false = true
        then [((((ri : Int)) * n + ci).toNat, ((((ri : Int)) + 1) * n + ci).toNat)] else [])
      = (if ri + 1 < n ∧ siteOpen g ((ri + 1) * n + ci)
         then [(ri * n + ci, (ri + 1) * n + ci)] else []) := by
    by_cases h : ri + 1 < n ∧ siteOpen g ((ri + 1) * n + ci)
    · have e1 : ((ri : Int) + 1) = ((ri + 1 : Nat) : Int) := by omega
      have e2 : ((((ri : Int)) + 1) * n + ci).toNat = (ri + 1) * n + ci := by
        rw [e1, cast_idx]
      rw [if_pos ⟨by omega, by rw [e2]; exact h.2⟩, if_pos h, e0, e2]
    · rw [if_neg ?_, if_neg h]
      intro hcon
      obtain ⟨h1, h2⟩ := hcon
      have e1 : ((ri : Int) + 1) = ((ri + 1 : Nat) : Int) := by omega
      rw [e1, cast_idx] at h2
      exact h ⟨by omega, h2⟩
  have s5 : (if 0 < (ci : Int) ∧ g.getD ((ri : Int) * n + ((ci : Int) - 1)).toNat false = true
        then [((((ri : Int)) * n + ci).toNat, ((ri : Int) * n + ((ci : Int) - 1)).toNat)] else [])
      = (if 0 < ci ∧ siteOpen g (ri * n + (ci - 1))
         then [(ri * n + ci, ri * n + (ci - 1))] else []) := by
    by_cases h : 0 < ci ∧ siteOpen g (ri * n + (ci - 1))
    · have e1 : ((ci : Int) - 1) = ((ci - 1 : Nat) : Int) := by omega
      have e2 : ((ri : Int) * n + ((ci : Int) - 1)).toNat = ri * n + (ci - 1) := by
        rw [e1, cast_idx]
      rw [if_pos ⟨by omega, by rw [e2]; exact h.2⟩, if_pos h, e0, e2]
    · rw [if_neg ?_, if_neg h]
      intro hcon
      obtain ⟨h1, h2⟩ := hcon
      have e1 : ((ci : Int) - 1) = ((ci - 1 : Nat) : Int) := by omega
      rw [e1, cast_idx] at h2
      exact h ⟨by omega, h2⟩
  have s6 : (if (ci : Int) < (n : Int) - 1 ∧
          g.getD ((ri : Int) * n + ((ci : Int) + 1)).toNat false = true
        then [((((ri : Int)) * n + ci).toNat, ((ri : Int) * n + ((ci : Int) + 1)).toNat)] else [])
      = (if ci + 1 < n ∧ siteOpen g (ri * n + (ci + 1))
         then [(ri * n + ci, ri * n + (ci + 1))] else []) := by
    by_cases h : ci + 1 < n ∧ siteOpen g (ri * n + (ci + 1))
    · have e1 : ((ci : Int) + 1) = ((ci + 1 : Nat) : Int) := by omega
      have e2 : ((ri : Int) * n + ((ci : Int) + 1)).toNat = ri * n + (ci + 1) := by
        rw [e1, cast_idx]
      rw [if_pos ⟨by omega, by rw [e2]; exact h.2⟩, if_pos h, e0, e2]
    · rw [if_neg ?_, if_neg h]
      intro hcon
      obtain ⟨h1, h2⟩ := hcon
      have e1 : ((ci : Int) + 1) = ((ci + 1 : Nat) : Int) := by omega
      rw [e1, cast_idx] at h2
      exact h ⟨by omega, h2⟩
  show (_ ++ _ ++ _ ++ _ ++ _ ++ _ : List (Nat × Nat)) = _
  rw [s1, s2, s3, s4, s5, s6]
  rfl

theorem mem_ite_single {α : Type} {c : Prop} [Decidable c] {x y : α} :
    (y ∈ (if c then [x] else [])) ↔ (c ∧ y = x) := by
  by_cases h : c <;> simp [h]

set_option maxHeartbeats 1000000 in
theorem openPairsN_mem {n : Nat} {g : List Bool} {ri ci : Nat} {a b : Nat} :
    ((a, b) ∈ openPairsN n g ri ci) ↔
      (a = ri * n + ci ∧
        ((ri = 0 ∧ b = n * n) ∨
         (ri = n - 1 ∧ b = n * n + 1) ∨
         (0 < ri ∧ siteOpen g ((ri - 1) * n + ci) ∧ b = (ri - 1) * n + ci) ∨
         (ri + 1 < n ∧ siteOpen g ((ri + 1) * n + ci) ∧ b = (ri + 1) * n + ci) ∨
         (0 < ci ∧ siteOpen g (ri * n + (ci - 1)) ∧ b = ri * n + (ci - 1)) ∨
         (ci + 1 < n ∧ siteOpen g (ri * n + (ci + 1)) ∧ b = ri * n + (ci + 1)))) := by
  simp only [openPairsN, List.mem_append, mem_ite_single, Prod.mk.injEq]
  tauto

theorem adjacent_symm {n a b : Nat} (h : adjacent n a b) : adjacent n b a := by
  rcases h with ⟨h1, h2⟩ | ⟨h1, h2⟩
  · exact Or.inl ⟨h1.symm, h2.symm⟩
  · exact Or.inr ⟨h1.symm, h2.symm⟩

theorem e0_mono {g g2 : List Bool} {n : Nat}
    (hm : ∀ u, siteOpen g u → siteOpen g2 u) {u v : Nat} (h : E0 g n u v) :
    E0 g2 n u v := by
  rcases h with ⟨h1, h2, h3, h4, h5⟩ | ⟨h1, h2, h3, h4⟩ | ⟨h1, h2, h3, h4⟩
  · exact Or.inl ⟨h1, h2, hm u h3, hm v h4, h5⟩
  · exact Or.inr (Or.inl ⟨h1, h2, hm u h3, h4⟩)
  · exact Or.inr (Or.inr ⟨h1, h2, hm u h3, h4⟩)

theorem esym_mono {g g2 : List Bool} {n : Nat}
    (hm : ∀ u, siteOpen g u → siteOpen g2 u) {u v : Nat} (h : Esym g n u v) :
    Esym g2 n u v := by
  rcases h with h | h
  · exact Or.inl (e0_mono hm h)
  · exact Or.inr (e0_mono hm h)

theorem siteOpen_lt {g : List Bool} {u : Nat} (h : siteOpen g u) : u < g.length := by
  unfold siteOpen at h
  by_contra hge
  rw [List.getD_eq_default] at h
  · exact absurd h (by simp)
  · omega

theorem siteOpen_set_self {g : List Bool} {i : Nat} (h : i < g.length) :
    siteOpen (g.set i true) i := by
  unfold siteOpen
  rw [getD_set_self h]

theorem siteOpen_set_ne {g : List Bool} {i u : Nat} (h : u ≠ i) :
    siteOpen (g.set i true) u ↔ siteOpen g u := by
  unfold siteOpen
  rw [getD_set_ne u (Ne.symm h)]

theorem siteOpen_set_mono {g : List Bool} {i u : Nat} (h : siteOpen g u) :
    siteOpen (g.set i true) u := by
  by_cases he : u = i
  · rw [he]
    exact siteOpen_set_self (he ▸ siteOpen_lt h)
  · exact (siteOpen_set_ne he).mpr h

/-- Every pair in the union worklist is an edge of the updated grid. -/
theorem openPairsN_edge {n : Nat} {g2 : List Bool} {ri ci : Nat}
    (hr : ri < n) (hc : ci < n) (hopen : siteOpen g2 (ri * n + ci)) :
    ∀ a b, (a, b) ∈ openPairsN n g2 ri ci → Esym g2 n a b := by
  intro a b hmem
  rw [openPairsN_mem] at hmem
  obtain ⟨ha, hcase⟩ := hmem
  subst ha
  have hn : 0 < n := by omega
  have hidxlt : ri * n + ci < n * n := idx_lt hr hc
  rcases hcase with ⟨h1, rfl⟩ | ⟨h1, rfl⟩ | ⟨h1, h2, rfl⟩ | ⟨h1, h2, rfl⟩ |
    ⟨h1, h2, rfl⟩ | ⟨h1, h2, rfl⟩
  · exact Or.inl (Or.inr (Or.inl ⟨hidxlt, by rw [idx_div hc]; exact h1, hopen, rfl⟩))
  · exact Or.inl (Or.inr (Or.inr ⟨hidxlt, by rw [idx_div hc]; exact h1, hopen, rfl⟩))
  · refine Or.inl (Or.inl ⟨hidxlt, idx_lt (by omega) hc, hopen, h2, ?_⟩)
    rw [adjacent_idx_iff hr hc _ (idx_lt (by omega) hc)]
    exact Or.inl ⟨h1, rfl⟩
  · refine Or.inl (Or.inl ⟨hidxlt, idx_lt h1 hc, hopen, h2, ?_⟩)
    rw [adjacent_idx_iff hr hc _ (idx_lt h1 hc)]
    exact Or.inr (Or.inl ⟨h1, rfl⟩)
  · refine Or.inl (Or.inl ⟨hidxlt, idx_lt hr (by omega), hopen, h2, ?_⟩)
    rw [adjacent_idx_iff hr hc _ (idx_lt hr (by omega))]
    exact Or.inr (Or.inr (Or.inl ⟨h1, rfl⟩))
  · refine Or.inl (Or.inl ⟨hidxlt, idx_lt hr h1, hopen, h2, ?_⟩)
    rw [adjacent_idx_iff hr hc _ (idx_lt hr h1)]
    exact Or.inr (Or.inr (Or.inr ⟨h1, rfl⟩))

theorem openPairsN_bounds {n : Nat} {g2 : List Bool} {ri ci : Nat}
    (hr : ri < n) (hc : ci < n) :
    ∀ xy ∈ openPairsN n g2 ri ci, xy.1 < n * n + 2 ∧ xy.2 < n * n + 2 := by
  intro xy hmem
  obtain ⟨a, b⟩ := xy
  rw [openPairsN_mem] at hmem
  obtain ⟨ha, hcase⟩ := hmem
  subst ha
  have hidxlt : ri * n + ci < n * n := idx_lt hr hc
  rcases hcase with ⟨h1, rfl⟩ | ⟨h1, rfl⟩ | ⟨h1, h2, rfl⟩ | ⟨h1, h2, rfl⟩ |
    ⟨h1, h2, rfl⟩ | ⟨h1, h2, rfl⟩
  · exact ⟨by omega, by omega⟩
  · exact ⟨by omega, by omega⟩
  · exact ⟨by omega, by have := idx_lt (show ri - 1 < n by omega) hc; omega⟩
  · exact ⟨by omega, by have := idx_lt h1 hc; omega⟩
  · exact ⟨by omega, by have := idx_lt hr (show ci - 1 < n by omega); omega⟩
  · exact ⟨by omega, by have := idx_lt hr h1; omega⟩

theorem addEdges_symm {S : Nat → Nat → Prop} {L : List (Nat × Nat)}
    (hS : Symmetric S) : Symmetric (addEdges S L) := by
  intro u v h
  rcases h with h | h | h
  · exact Or.inl (hS h)
  · exact Or.inr (Or.inr h)
  · exact Or.inr (Or.inl h)

/-- Every edge of the grid with one more open site is reachable from the old
edges plus the union worklist. -/
theorem esym_new_sub {n : Nat} {g : List Bool} {ri ci : Nat}
    (hr : ri < n) (hc : ci < n)
    (hglen : g.length = n * n) :
    ∀ u v, Esym (g.set (ri * n + ci) true) n u v →
      Relation.ReflTransGen
        (addEdges (Esym g n) (openPairsN n (g.set (ri * n + ci) true) ri ci)) u v := by
  have hn : 0 < n := by omega
  have hidxlt : ri * n + ci < n * n := idx_lt hr hc
  have hgl : ri * n + ci < g.length := by omega
  have hopen : siteOpen (g.set (ri * n + ci) true) (ri * n + ci) := siteOpen_set_self hgl
  have sub : ∀ u v, E0 (g.set (ri * n + ci) true) n u v →
      addEdges (Esym g n) (openPairsN n (g.set (ri * n + ci) true) ri ci) u v := by
    intro u v h
    rcases h with ⟨hu, hvlt, hou, hov, hadj⟩ | ⟨hu, hdiv, hou, hb⟩ | ⟨hu, hdiv, hou, hb⟩
    · by_cases hui : u = ri * n + ci
      · subst hui
        have hvi : v ≠ ri * n + ci := by
          intro he
          rw [he] at hadj
          exact adjacent_irrefl hn hadj
        rw [adjacent_idx_iff hr hc _ hvlt] at hadj
        refine Or.inr (Or.inl (openPairsN_mem.mpr ⟨rfl, ?_⟩))
        rcases hadj with ⟨h1, rfl⟩ | ⟨h1, rfl⟩ | ⟨h1, rfl⟩ | ⟨h1, rfl⟩
        · exact Or.inr (Or.inr (Or.inl ⟨h1, hov, rfl⟩))
        · exact Or.inr (Or.inr (Or.inr (Or.inl ⟨h1, hov, rfl⟩)))
        · exact Or.inr (Or.inr (Or.inr (Or.inr (Or.inl ⟨h1, hov, rfl⟩))))
        · exact Or.inr (Or.inr (Or.inr (Or.inr (Or.inr ⟨h1, hov, rfl⟩))))
      · by_cases hvi : v = ri * n + ci
        · subst hvi
          have hadj2 := adjacent_symm hadj
          rw [adjacent_idx_iff hr hc _ hu] at hadj2
          refine Or.inr (Or.inr (openPairsN_mem.mpr ⟨rfl, ?_⟩))
          rcases hadj2 with ⟨h1, rfl⟩ | ⟨h1, rfl⟩ | ⟨h1, rfl⟩ | ⟨h1, rfl⟩
          · exact Or.inr (Or.inr (Or.inl ⟨h1, hou, rfl⟩))
          · exact Or.inr (Or.inr (Or.inr (Or.inl ⟨h1, hou, rfl⟩)))
          · exact Or.inr (Or.inr (Or.inr (Or.inr (Or.inl ⟨h1, hou, rfl⟩))))
          · exact Or.inr (Or.inr (Or.inr (Or.inr (Or.inr ⟨h1, hou, rfl⟩))))
        · exact Or.inl (Or.inl (Or.inl ⟨hu, hvlt, (siteOpen_set_ne hui).mp hou,
            (siteOpen_set_ne hvi).mp hov, hadj⟩))
    · by_cases hui : u = ri * n + ci
      · subst hui
        rw [idx_div hc] at hdiv
        exact Or.inr (Or.inl (openPairsN_mem.mpr ⟨rfl, Or.inl ⟨hdiv, hb⟩⟩))
      · exact Or.inl (Or.inl (Or.inr (Or.inl ⟨hu, hdiv,
          (siteOpen_set_ne hui).mp hou, hb⟩)))
    · by_cases hui : u = ri * n + ci
      · subst hui
        rw [idx_div hc] at hdiv
        exact Or.inr (Or.inl (openPairsN_mem.mpr ⟨rfl, Or.inr (Or.inl ⟨hdiv, hb⟩)⟩))
      · exact Or.inl (Or.inl (Or.inr (Or.inr ⟨hu, hdiv,
          (siteOpen_set_ne hui).mp hou, hb⟩)))
  intro u v h
  rcases h with h | h
  · exact Relation.ReflTransGen.single (sub u v h)
  · exact Relation.ReflTransGen.single (addEdges_symm esym_symm (sub v u h))

/-- The edges of the grid with one more open site generate, as a reflexive
transitive closure, the same relation as the old edges plus the union
worklist of `open`. -/
theorem open_edge_iff {n : Nat} {g : List Bool} {ri ci : Nat}
    (hr : ri < n) (hc : ci < n) (hglen : g.length = n * n) :
    ∀ u v,
      Relation.ReflTransGen (addEdges (Esym g n)
        (openPairsN n (g.set (ri * n + ci) true) ri ci)) u v ↔
      Relation.ReflTransGen (Esym (g.set (ri * n + ci) true) n) u v := by
  have hn : 0 < n := by omega
  have hidxlt : ri * n + ci < n * n := idx_lt hr hc
  have hgl : ri * n + ci < g.length := by omega
  have hmono : ∀ u, siteOpen g u → siteOpen (g.set (ri * n + ci) true) u :=
    fun u hu => siteOpen_set_mono hu
  have hopen2 : siteOpen (g.set (ri * n + ci) true) (ri * n + ci) :=
    siteOpen_set_self hgl
  apply rtg_mono_iff
  · intro u v huv
    rcases huv with huv | huv | huv
    · exact Relation.ReflTransGen.single (esym_mono hmono huv)
    · exact Relation.ReflTransGen.single (openPairsN_edge hr hc hopen2 u v huv)
    · exact Relation.ReflTransGen.single
        (esym_symm (openPairsN_edge hr hc hopen2 v u huv))
  · intro u v huv
    exact esym_new_sub hr hc hglen u v huv

/-- `open` preserves the global invariant, keeps `n`, only ever opens sites,
and leaves the requested site open. -/
theorem openE_ok_inv {P : Percolation} (hI : Inv P) {row col : Int} {P' : Percolation}
    (h : openE P row col = .ok P') :
    Inv P' ∧ P'.n = P.n ∧
    (∀ u, siteOpen P.grid u → siteOpen P'.grid u) ∧
    siteOpen P'.grid ((row * P.n + col).toNat) := by
  unfold openE at h
  by_cases hv : row < 0 ∨ (P.n : Int) ≤ row ∨ col < 0 ∨ (P.n : Int) ≤ col
  · rw [if_pos hv] at h
    exact Except.noConfusion h
  rw [if_neg hv] at h
  obtain ⟨ri, ci, rfl, rfl, hr, hc⟩ := valid_coords hv
  have hcast : (((ri : Int)) * P.n + ci).toNat = ri * P.n + ci := cast_idx P.n ri ci
  by_cases hop : P.grid.getD ((((ri : Int)) * P.n + ci).toNat) false = true
  · rw [if_pos hop] at h
    simp only [Except.ok.injEq] at h
    subst h
    exact ⟨hI, rfl, fun u hu => hu, by rw [hcast]; rw [hcast] at hop; exact hop⟩
  · rw [if_neg hop] at h
    simp only [Except.ok.injEq] at h
    subst h
    have hn : 0 < P.n := hI.npos
    have hidxlt : ri * P.n + ci < P.n * P.n := idx_lt hr hc
    have hgl : ri * P.n + ci < P.grid.length := by rw [hI.glen]; exact hidxlt
    have hgset : P.grid.set ((((ri : Int)) * P.n + ci).toNat) true
        = P.grid.set (ri * P.n + ci) true := by rw [hcast]
    have hpairs : openPairs P.n (P.grid.set ((((ri : Int)) * P.n + ci).toNat) true)
          (ri : Int) (ci : Int)
        = openPairsN P.n (P.grid.set (ri * P.n + ci) true) ri ci := by
      rw [hgset]
      exact openPairs_eq_natural _ hr hc
    have hmono : ∀ u, siteOpen P.grid u →
        siteOpen (P.grid.set (ri * P.n + ci) true) u :=
      fun u hu => siteOpen_set_mono hu
    have hopen' : siteOpen (P.grid.set (ri * P.n + ci) true) (ri * P.n + ci) :=
      siteOpen_set_self hgl
    obtain ⟨d, hwfd⟩ := hI.wf
    have hslen : P.size.length = P.parent.length := by rw [hI.slen, hI.plen]
    have hLb : ∀ xy ∈ openPairsN P.n (P.grid.set (ri * P.n + ci) true) ri ci,
        xy.1 < P.parent.length ∧ xy.2 < P.parent.length := by
      intro xy hxy
      rw [hI.plen]
      exact openPairsN_bounds hr hc xy hxy
    have hSb : ∀ u v, Esym P.grid P.n u v → u < P.parent.length ∧ v < P.parent.length := by
      intro u v huv
      rw [hI.plen]
      exact esym_lt huv
    have hpart0 : ∀ u v, u < P.parent.length → v < P.parent.length →
        (rootOf P.parent u = rootOf P.parent v ↔
          Relation.ReflTransGen (Esym P.grid P.n) u v) := by
      intro u v hu hv
      rw [hI.plen] at hu hv
      exact hI.part u v hu hv
    obtain ⟨m1, m2, m3, m4, m5⟩ := unionList_spec
      (openPairsN P.n (P.grid.set (ri * P.n + ci) true) ri ci)
      P.parent P.size (Esym P.grid P.n) ⟨d, hwfd⟩ hslen hLb hSb hpart0 hI.sizes
    have hedges := open_edge_iff hr hc hI.glen
    constructor
    · refine ⟨hn, ?_, ?_, ?_, ?_, ?_, ?_⟩
      · simp only [hpairs]
        rw [List.length_set, hI.glen]
      · simp only [hpairs]
        rw [m1, hI.plen]
      · simp only [hpairs]
        rw [m2, hI.plen]
      · simp only [hpairs]
        exact m3
      · simp only [hpairs]
        intro x y hx hy
        rw [hgset]
        rw [m5 x y (by rw [hI.plen]; exact hx) (by rw [hI.plen]; exact hy)]
        exact hedges x y
      · simp only [hpairs]
        exact m4
    · refine ⟨rfl, ?_, ?_⟩
      · intro u hu
        show siteOpen (P.grid.set ((((ri : Int)) * P.n + ci).toNat) true) u
        rw [hgset]
        exact hmono u hu
      · show siteOpen (P.grid.set ((((ri : Int)) * P.n + ci).toNat) true) _
        rw [hgset, hcast]
        exact hopen'

/-- Replacing the parent array by one of the same length with the same
partition and the same roots preserves the invariant. -/
theorem inv_replace_parent {P : Percolation} (hI : Inv P) {p' : List Nat}
    (hlen : p'.length = P.parent.length)
    (hwf' : ∃ d, UFWF p' d)
    (hroots : ∀ z, z < P.parent.length → rootOf p' z = rootOf P.parent z)
    (hrf : ∀ z, z < P.parent.length → (parentOf p' z = z ↔ parentOf P.parent z = z)) :
    Inv { P with parent := p' } := by
  refine ⟨hI.npos, hI.glen, by rw [hlen]; exact hI.plen, hI.slen, hwf', ?_, ?_⟩
  · intro x y hx hy
    have hx' : x < P.parent.length := by rw [hI.plen]; exact hx
    have hy' : y < P.parent.length := by rw [hI.plen]; exact hy
    show rootOf p' x = rootOf p' y ↔ _
    rw [hroots x hx', hroots y hy']
    exact hI.part x y hx hy
  · exact sizeInv_of_same hlen hroots hrf hI.sizes

/-- Full specification of `isFull`: the observable answer, and the fact the
compressed state keeps the invariant, the grid, the counter, the sizes and
the partition. -/
theorem isFullE_ok {P : Percolation} (hI : Inv P) {row col : Int} {b : Bool}
    {P' : Percolation} (h : isFullE P row col = .ok (b, P')) :
    Inv P' ∧ P'.n = P.n ∧ P'.grid = P.grid ∧ P'.size = P.size ∧
    P'.openSitesCount = P.openSitesCount ∧
    (∀ z w, z < P.n * P.n + 2 → w < P.n * P.n + 2 →
      (rootOf P'.parent z = rootOf P'.parent w ↔ rootOf P.parent z = rootOf P.parent w)) ∧
    (b = true ↔ (siteOpen P.grid ((row * P.n + col).toNat) ∧
       ECl P.grid P.n ((row * P.n + col).toNat) (P.n * P.n))) := by
  unfold isFullE at h
  by_cases hv : row < 0 ∨ (P.n : Int) ≤ row ∨ col < 0 ∨ (P.n : Int) ≤ col
  · rw [if_pos hv] at h
    exact Except.noConfusion h
  rw [if_neg hv] at h
  obtain ⟨ri, ci, rfl, rfl, hr, hc⟩ := valid_coords hv
  have hcast : (((ri : Int)) * P.n + ci).toNat = ri * P.n + ci := cast_idx P.n ri ci
  have hidxlt : ri * P.n + ci < P.n * P.n := idx_lt hr hc
  by_cases hop : P.grid.getD ((((ri : Int)) * P.n + ci).toNat) false = true
  · rw [if_pos hop] at h
    simp only [Except.ok.injEq, Prod.mk.injEq] at h
    obtain ⟨hb, hP'⟩ := h
    subst hP'
    rw [hcast] at hb hop
    have hxL : ri * P.n + ci < P.parent.length := by rw [hI.plen]; omega
    have hyL : P.n * P.n < P.parent.length := by rw [hI.plen]; omega
    obtain ⟨d, hwfd⟩ := hI.wf
    obtain ⟨a1, b1, hlen, hwf2, hroots, hrf⟩ := find2_spec hwfd hxL hyL
    rw [hcast]
    refine ⟨inv_replace_parent hI hlen ⟨d, hwf2⟩ hroots hrf, rfl, rfl, rfl, rfl, ?_, ?_⟩
    · intro z w hz hw
      have hz' : z < P.parent.length := by rw [hI.plen]; exact hz
      have hw' : w < P.parent.length := by rw [hI.plen]; exact hw
      show rootOf (find (find P.parent _).2 _).2 z = _ ↔ _
      rw [hroots z hz', hroots w hw']
    · rw [← hb]
      rw [a1, b1]
      constructor
      · intro hd
        have := of_decide_eq_true hd
        exact ⟨hop, (hI.part _ _ (by omega) (by omega)).mp this⟩
      · intro ⟨_, hecl⟩
        exact decide_eq_true ((hI.part _ _ (by omega) (by omega)).mpr hecl)
  · rw [if_neg hop] at h
    simp only [Except.ok.injEq, Prod.mk.injEq] at h
    obtain ⟨hb, hP'⟩ := h
    subst hP'
    refine ⟨hI, rfl, rfl, rfl, rfl, fun z w _ _ => Iff.rfl, ?_⟩
    rw [← hb]
    constructor
    · intro hfalse
      exact absurd hfalse (by simp)
    · intro ⟨hs, _⟩
      rw [hcast] at hop
      exact absurd hs hop

/-- Full specification of `percolates`: the observable answer, and the fact
the compressed state keeps everything observable. -/
theorem percolatesE_spec {P : Percolation} (hI : Inv P) :
    Inv (percolatesE P).2 ∧ (percolatesE P).2.n = P.n ∧
    (percolatesE P).2.grid = P.grid ∧ (percolatesE P).2.size = P.size ∧
    (percolatesE P).2.openSitesCount = P.openSitesCount ∧
    (∀ z w, z < P.n * P.n + 2 → w < P.n * P.n + 2 →
      (rootOf (percolatesE P).2.parent z = rootOf (percolatesE P).2.parent w ↔
        rootOf P.parent z = rootOf P.parent w)) ∧
    ((percolatesE P).1 = true ↔ ECl P.grid P.n (P.n * P.n) (P.n * P.n + 1)) := by
  have hxL : P.n * P.n < P.parent.length := by rw [hI.plen]; omega
  have hyL : P.n * P.n + 1 < P.parent.length := by rw [hI.plen]; omega
  obtain ⟨d, hwfd⟩ := hI.wf
  obtain ⟨a1, b1, hlen, hwf2, hroots, hrf⟩ := find2_spec hwfd hxL hyL
  refine ⟨inv_replace_parent hI hlen ⟨d, hwf2⟩ hroots hrf, rfl, rfl, rfl, rfl, ?_, ?_⟩
  · intro z w hz hw
    have hz' : z < P.parent.length := by rw [hI.plen]; exact hz
    have hw' : w < P.parent.length := by rw [hI.plen]; exact hw
    show rootOf (find (find P.parent (P.n * P.n)).2 (P.n * P.n + 1)).2 z
        = rootOf (find (find P.parent (P.n * P.n)).2 (P.n * P.n + 1)).2 w ↔ _
    rw [hroots z hz', hroots w hw']
  · show decide ((find P.parent (P.n * P.n)).1
      = (find (find P.parent (P.n * P.n)).2 (P.n * P.n + 1)).1) = true ↔ _
    rw [a1, b1]
    constructor
    · intro hd
      exact (hI.part _ _ (by omega) (by omega)).mp (of_decide_eq_true hd)
    · intro hecl
      exact decide_eq_true ((hI.part _ _ (by omega) (by omega)).mpr hecl)

/-- States reachable from a freshly constructed grid by any sequence of
`open`, `isFull` and `percolates` calls (the operations that can touch the
parent array; `isOpen` and `numberOfOpenSites` do not mutate anything). -/
inductive Reachable : Percolation → Prop
  | init (n : Nat) : 0 < n → Reachable (initP n)
  | openStep {P P' : Percolation} (row col : Int) :
      Reachable P → openE P row col = .ok P' → Reachable P'
  | fullStep {P P' : Percolation} (row col : Int) (b : Bool) :
      Reachable P → isFullE P row col = .ok (b, P') → Reachable P'
  | percStep {P : Percolation} :
      Reachable P → Reachable (percolatesE P).2

theorem reachable_inv {P : Percolation} (h : Reachable P) : Inv P := by
  induction h with
  | init n hn => exact initP_inv hn
  | openStep row col hR hok ih => exact (openE_ok_inv ih hok).1
  | fullStep row col b hR hok ih => exact (isFullE_ok ih hok).1
  | percStep hR ih => exact (percolatesE_spec ih).1

/-! ### Characterising connectivity to the virtual nodes -/

/-- Chain of open, axis-adjacent sites connecting `x` and `y`. -/
def siteConn (g : List Bool) (n : Nat) (x y : Nat) : Prop :=
  Relation.ReflTransGen (adjE g n) x y

/-- `x` is connected to the top boundary through a chain of open sites:
some open site of row 0 reaches `x` through open neighbors. -/
def topAtt (g : List Bool) (n : Nat) (x : Nat) : Prop :=
  ∃ t, t < n * n ∧ t / n = 0 ∧ siteOpen g t ∧ siteConn g n t x

/-- `x` is connected to the bottom boundary through a chain of open sites. -/
def botAtt (g : List Bool) (n : Nat) (x : Nat) : Prop :=
  ∃ t, t < n * n ∧ t / n = n - 1 ∧ siteOpen g t ∧ siteConn g n t x

/-- The grid percolates in the pure graph sense: one open chain touches both
the top and the bottom boundary. -/
def PercP (g : List Bool) (n : Nat) : Prop := ∃ x, topAtt g n x ∧ botAtt g n x

theorem adjE_symm {g : List Bool} {n a b : Nat} (h : adjE g n a b) : adjE g n b a :=
  ⟨h.2.1, h.1, h.2.2.2.1, h.2.2.1, adjacent_symm h.2.2.2.2⟩

theorem siteConn_symm {g : List Bool} {n x y : Nat} (h : siteConn g n x y) :
    siteConn g n y x :=
  Relation.ReflTransGen.symmetric (fun a b hab => adjE_symm hab) h

theorem siteConn_trans {g : List Bool} {n x y z : Nat} (h1 : siteConn g n x y)
    (h2 : siteConn g n y z) : siteConn g n x z :=
  Relation.ReflTransGen.trans h1 h2

theorem siteConn_last {g : List Bool} {n x y : Nat} (h : siteConn g n x y) :
    x = y ∨ ∃ c, adjE g n c y := by
  induction h with
  | refl => exact Or.inl rfl
  | tail hrt he ih => exact Or.inr ⟨_, he⟩

theorem siteConn_isolated {g : List Bool} {n x y : Nat} (h : siteConn g n x y)
    (hy : n * n ≤ y) : x = y := by
  rcases siteConn_last h with h' | ⟨c, hc⟩
  · exact h'
  · exact absurd hc.2.1 (by omega)

theorem topAtt_open {g : List Bool} {n x : Nat} (h : topAtt g n x) : siteOpen g x := by
  obtain ⟨t, _, _, hto, hconn⟩ := h
  rcases siteConn_last hconn with rfl | ⟨c, hc⟩
  · exact hto
  · exact hc.2.2.2.1

theorem topAtt_lt {g : List Bool} {n x : Nat} (h : topAtt g n x) : x < n * n := by
  obtain ⟨t, htl, _, _, hconn⟩ := h
  rcases siteConn_last hconn with rfl | ⟨c, hc⟩
  · exact htl
  · exact hc.2.1

theorem botAtt_open {g : List Bool} {n x : Nat} (h : botAtt g n x) : siteOpen g x := by
  obtain ⟨t, _, _, hto, hconn⟩ := h
  rcases siteConn_last hconn with rfl | ⟨c, hc⟩
  · exact hto
  · exact hc.2.2.2.1

theorem botAtt_lt {g : List Bool} {n x : Nat} (h : botAtt g n x) : x < n * n := by
  obtain ⟨t, htl, _, _, hconn⟩ := h
  rcases siteConn_last hconn with rfl | ⟨c, hc⟩
  · exact htl
  · exact hc.2.1

/-- `x` sits on the `c` boundary side: attached to it by an open chain, or it
is that side's virtual node itself. -/
def side (g : List Bool) (n : Nat) : Bool → Nat → Prop
  | true, x => topAtt g n x ∨ x = n * n
  | false, x => botAtt g n x ∨ x = n * n + 1

/-- The candidate closed form of the union-find partition: connected through
open sites, or both endpoints hanging on boundary sides that are identified
(the same side, or any two sides once the grid percolates). -/
def Rrel (g : List Bool) (n : Nat) (x y : Nat) : Prop :=
  siteConn g n x y ∨
  ∃ cx cy : Bool, side g n cx x ∧ side g n cy y ∧ (cx = cy ∨ PercP g n)

theorem side_sat {g : List Bool} {n : Nat} {c : Bool} {x y : Nat}
    (hconn : siteConn g n x y) (h : side g n c y) : side g n c x := by
  cases c with
  | true =>
    rcases h with h | h
    · obtain ⟨t, h1, h2, h3, h4⟩ := h
      exact Or.inl ⟨t, h1, h2, h3, siteConn_trans h4 (siteConn_symm hconn)⟩
    · exact Or.inr (siteConn_isolated (h ▸ hconn) (by omega))
  | false =>
    rcases h with h | h
    · obtain ⟨t, h1, h2, h3, h4⟩ := h
      exact Or.inl ⟨t, h1, h2, h3, siteConn_trans h4 (siteConn_symm hconn)⟩
    · exact Or.inr (siteConn_isolated (h ▸ hconn) (by omega))

theorem side_both {g : List Bool} {n : Nat} {y : Nat} (ht : side g n true y)
    (hb : side g n false y) : PercP g n := by
  rcases ht with ht | ht
  · rcases hb with hb | hb
    · exact ⟨y, ht, hb⟩
    · have := topAtt_lt ht
      omega
  · rcases hb with hb | hb
    · have := botAtt_lt hb
      omega
    · omega

theorem side_vtop {g : List Bool} {n : Nat} {c : Bool} (h : side g n c (n * n)) :
    c = true := by
  cases c with
  | true => rfl
  | false =>
    rcases h with h | h
    · have := botAtt_lt h
      omega
    · omega

theorem side_vbot {g : List Bool} {n : Nat} {c : Bool} (h : side g n c (n * n + 1)) :
    c = false := by
  cases c with
  | false => rfl
  | true =>
    rcases h with h | h
    · have := topAtt_lt h
      omega
    · omega

theorem rrel_refl {g : List Bool} {n : Nat} (x : Nat) : Rrel g n x x :=
  Or.inl Relation.ReflTransGen.refl

theorem rrel_symm {g : List Bool} {n x y : Nat} (h : Rrel g n x y) : Rrel g n y x := by
  rcases h with h | ⟨cx, cy, hx, hy, hor⟩
  · exact Or.inl (siteConn_symm h)
  · refine Or.inr ⟨cy, cx, hy, hx, ?_⟩
    rcases hor with h | h
    · exact Or.inl h.symm
    · exact Or.inr h

theorem rrel_trans {g : List Bool} {n x y z : Nat} (h1 : Rrel g n x y)
    (h2 : Rrel g n y z) : Rrel g n x z := by
  rcases h1 with h1 | ⟨cx, c1, hx, hy1, hor1⟩
  · rcases h2 with h2 | ⟨c2, cz, hy2, hz, hor2⟩
    · exact Or.inl (siteConn_trans h1 h2)
    · exact Or.inr ⟨c2, cz, side_sat h1 hy2, hz, hor2⟩
  · rcases h2 with h2 | ⟨c2, cz, hy2, hz, hor2⟩
    · exact Or.inr ⟨cx, c1, hx, side_sat (siteConn_symm h2) hy1, hor1⟩
    · by_cases hcc : c1 = c2
      · refine Or.inr ⟨cx, cz, hx, hz, ?_⟩
        rcases hor1 with e1 | p
        · rcases hor2 with e2 | p
          · exact Or.inl (e1.trans (hcc ▸ e2))
          · exact Or.inr p
        · exact Or.inr p
      · have hP : PercP g n := by
          cases c1 with
          | true =>
            cases c2 with
            | true => exact absurd rfl hcc
            | false => exact side_both hy1 hy2
          | false =>
            cases c2 with
            | true => exact side_both hy2 hy1
            | false => exact absurd rfl hcc
        exact Or.inr ⟨cx, cz, hx, hz, Or.inr hP⟩

theorem esym_sub_rrel {g : List Bool} {n a b : Nat} (h : Esym g n a b) :
    Rrel g n a b := by
  have he0 : ∀ u v, E0 g n u v → Rrel g n u v := by
    intro u v h0
    rcases h0 with h0 | h0 | h0
    · exact Or.inl (Relation.ReflTransGen.single h0)
    · obtain ⟨h1, h2, h3, h4⟩ := h0
      refine Or.inr ⟨true, true, Or.inl ⟨u, h1, h2, h3, Relation.ReflTransGen.refl⟩,
        Or.inr h4, Or.inl rfl⟩
    · obtain ⟨h1, h2, h3, h4⟩ := h0
      refine Or.inr ⟨false, false, Or.inl ⟨u, h1, h2, h3, Relation.ReflTransGen.refl⟩,
        Or.inr h4, Or.inl rfl⟩
  rcases h with h | h
  · exact he0 a b h
  · exact rrel_symm (he0 b a h)

theorem side_ecl {g : List Bool} {n : Nat} {c : Bool} {x : Nat} (h : side g n c x) :
    ECl g n x (cond c (n * n) (n * n + 1)) := by
  cases c with
  | true =>
    rcases h with h | h
    · obtain ⟨t, h1, h2, h3, h4⟩ := h
      have hxt : ECl g n x t :=
        ecl_symm (Relation.ReflTransGen.mono (fun a b hab => Or.inl (Or.inl hab)) h4)
      have htv : ECl g n t (n * n) :=
        Relation.ReflTransGen.single (Or.inl (Or.inr (Or.inl ⟨h1, h2, h3, rfl⟩)))
      exact ecl_trans hxt htv
    · rw [h]
      exact Relation.ReflTransGen.refl
  | false =>
    rcases h with h | h
    · obtain ⟨t, h1, h2, h3, h4⟩ := h
      have hxt : ECl g n x t :=
        ecl_symm (Relation.ReflTransGen.mono (fun a b hab => Or.inl (Or.inl hab)) h4)
      have htv : ECl g n t (n * n + 1) :=
        Relation.ReflTransGen.single (Or.inl (Or.inr (Or.inr ⟨h1, h2, h3, rfl⟩)))
      exact ecl_trans hxt htv
    · rw [h]
      exact Relation.ReflTransGen.refl

theorem percp_ecl {g : List Bool} {n : Nat} (h : PercP g n) :
    ECl g n (n * n) (n * n + 1) := by
  obtain ⟨w, hT, hB⟩ := h
  have h1 : ECl g n w (n * n) := side_ecl (c := true) (Or.inl hT)
  have h2 : ECl g n w (n * n + 1) := side_ecl (c := false) (Or.inl hB)
  exact ecl_trans (ecl_symm h1) h2

theorem rrel_sub_ecl {g : List Bool} {n x y : Nat} (h : Rrel g n x y) : ECl g n x y := by
  rcases h with h | ⟨cx, cy, hx, hy, hor⟩
  · exact Relation.ReflTransGen.mono (fun a b hab => Or.inl (Or.inl hab)) h
  · have h1 := side_ecl hx
    have h2 := side_ecl hy
    rcases hor with he | hP
    · rw [he] at h1
      exact ecl_trans h1 (ecl_symm h2)
    · have hv : ECl g n (cond cx (n * n) (n * n + 1))
          (cond cy (n * n) (n * n + 1)) := by
        cases cx with
        | true =>
          cases cy with
          | true => exact Relation.ReflTransGen.refl
          | false => exact percp_ecl hP
        | false =>
          cases cy with
          | true => exact ecl_symm (percp_ecl hP)
          | false => exact Relation.ReflTransGen.refl
      exact ecl_trans h1 (ecl_trans hv (ecl_symm h2))

/-- Closed form of the connectivity relation generated by the grid edges. -/
theorem ecl_iff_rrel {g : List Bool} {n x y : Nat} : ECl g n x y ↔ Rrel g n x y := by
  constructor
  · intro h
    induction h with
    | refl => exact rrel_refl x
    | tail hrt he ih => exact rrel_trans ih (esym_sub_rrel he)
  · exact rrel_sub_ecl

/-- What `connected(index, virtualTop)` really means for a site: attached to
the top boundary by an open chain, or — backwash — the system percolates and
the site is attached to the bottom boundary. -/
theorem ecl_vtop_iff {g : List Bool} {n x : Nat} (hx : x < n * n) :
    ECl g n x (n * n) ↔
      (topAtt g n x ∨ (PercP g n ∧ botAtt g n x)) := by
  rw [ecl_iff_rrel]
  constructor
  · intro h
    rcases h with h | ⟨cx, cy, hsx, hsy, hor⟩
    · have := siteConn_isolated h (le_refl _)
      omega
    · have hcy : cy = true := side_vtop hsy
      cases cx with
      | true =>
        rcases hsx with h' | h'
        · exact Or.inl h'
        · omega
      | false =>
        have hP : PercP g n := by
          rcases hor with he | hP
          · rw [hcy] at he
            exact absurd he (by simp)
          · exact hP
        rcases hsx with h' | h'
        · exact Or.inr ⟨hP, h'⟩
        · omega
  · intro h
    rcases h with h | ⟨hP, h⟩
    · exact Or.inr ⟨true, true, Or.inl h, Or.inr rfl, Or.inl rfl⟩
    · exact Or.inr ⟨false, true, Or.inl h, Or.inr rfl, Or.inr hP⟩

/-- What `connected(virtualTop, virtualBottom)` really means: the grid
percolates through a chain of open sites. -/
theorem ecl_percolates_iff {g : List Bool} {n : Nat} (hn : 0 < n) :
    ECl g n (n * n) (n * n + 1) ↔ PercP g n := by
  rw [ecl_iff_rrel]
  constructor
  · intro h
    rcases h with h | ⟨cx, cy, hsx, hsy, hor⟩
    · have := siteConn_isolated h (by omega)
      omega
    · have hcx : cx = true := side_vtop hsx
      have hcy : cy = false := side_vbot hsy
      rcases hor with he | hP
      · rw [hcx, hcy] at he
        exact absurd he (by simp)
      · exact hP
  · intro h
    exact Or.inr ⟨true, false, Or.inr rfl, Or.inr rfl, Or.inr h⟩

/-! ### The quick-find backend (`PercolationQuickFind`) -/

/-- State of `class PercolationQuickFind`. -/
structure PercolationQF where
  n : Nat
  grid : List Bool
  id : List Nat
  openSitesCount : Nat
deriving DecidableEq

/-- Freshly constructed quick-find grid. -/
def initQF (n : Nat) : PercolationQF :=
  { n := n
    grid := List.replicate (n * n) false
    id := List.range (n * n + 2)
    openSitesCount := 0 }

/-- `PercolationQuickFind::PercolationQuickFind(int n)`. -/
def mkPercolationQF (nI : Int) : Except String PercolationQF :=
  if nI ≤ 0 then .error "Grid size must be positive"
  else .ok (initQF nI.toNat)

/-- `PercolationQuickFind::find`: `return id[x]`. -/
def findQF (l : List Nat) (x : Nat) : Nat := l.getD x x

/-- `PercolationQuickFind::unionSites`: change every entry equal to `id[x]`
into `id[y]`. -/
def unionQF (l : List Nat) (x y : Nat) : List Nat :=
  if findQF l x = findQF l y then l
  else l.map (fun v => if v = findQF l x then findQF l y else v)

/-- Worklist of quick-find unions. -/
def unionListQF (l : List Nat) (pairs : List (Nat × Nat)) : List Nat :=
  pairs.foldl (fun l xy => unionQF l xy.1 xy.2) l

/-- `PercolationQuickFind::open(row, col)`: structurally identical to the
weighted backend's `open`, delegating to the quick-find union. -/
def openQF (Q : PercolationQF) (row col : Int) : Except String PercolationQF :=
  if row < 0 ∨ (Q.n : Int) ≤ row ∨ col < 0 ∨ (Q.n : Int) ≤ col then
    .error "Index out of bounds"
  else if Q.grid.getD ((row * Q.n + col).toNat) false = true then .ok Q
  else
    let g := Q.grid.set ((row * Q.n + col).toNat) true
    let l := unionListQF Q.id (openPairs Q.n g row col)
    .ok { Q with grid := g, id := l, openSitesCount := Q.openSitesCount + 1 }

/-- `PercolationQuickFind::isOpen(row, col)`. -/
def isOpenQF (Q : PercolationQF) (row col : Int) : Except String Bool :=
  if row < 0 ∨ (Q.n : Int) ≤ row ∨ col < 0 ∨ (Q.n : Int) ≤ col then
    .error "Index out of bounds"
  else .ok (Q.grid.getD ((row * Q.n + col).toNat) false)

/-- `PercolationQuickFind::isFull(row, col)`: quick-find `find` does not
mutate, so only the answer is returned. -/
def isFullQF (Q : PercolationQF) (row col : Int) : Except String Bool :=
  if row < 0 ∨ (Q.n : Int) ≤ row ∨ col < 0 ∨ (Q.n : Int) ≤ col then
    .error "Index out of bounds"
  else if Q.grid.getD ((row * Q.n + col).toNat) false = true then
    .ok (decide (findQF Q.id ((row * Q.n + col).toNat) = findQF Q.id (Q.n * Q.n)))
  else .ok false

/-- `PercolationQuickFind::percolates()`. -/
def percolatesQF (Q : PercolationQF) : Bool :=
  decide (findQF Q.id (Q.n * Q.n) = findQF Q.id (Q.n * Q.n + 1))

/-- `PercolationQuickFind::numberOfOpenSites()`. -/
def numberOfOpenSitesQF (Q : PercolationQF) : Nat := Q.openSitesCount

/-- Invariant of a reachable quick-find state. -/
structure InvQF (Q : PercolationQF) : Prop where
  npos : 0 < Q.n
  glen : Q.grid.length = Q.n * Q.n
  ilen : Q.id.length = Q.n * Q.n + 2
  part : ∀ x y, x < Q.n * Q.n + 2 → y < Q.n * Q.n + 2 →
    (findQF Q.id x = findQF Q.id y ↔ ECl Q.grid Q.n x y)

theorem initQF_inv {n : Nat} (hn : 0 < n) : InvQF (initQF n) := by
  refine ⟨hn, by simp [initQF], by simp [initQF], ?_⟩
  intro x y hx hy
  show parentOf (List.range (n * n + 2)) x = parentOf (List.range (n * n + 2)) y ↔ _
  rw [parentOf_range, parentOf_range]
  exact (ecl_init (n := n) (a := x) (b := y)).symm

theorem unionQF_length (l : List Nat) (x y : Nat) : (unionQF l x y).length = l.length := by
  unfold unionQF
  split_ifs
  · rfl
  · exact List.length_map l _

theorem findQF_map {l : List Nat} {f : Nat → Nat} {z : Nat} (hz : z < l.length) :
    findQF (l.map f) z = f (findQF l z) := by
  unfold findQF
  simp [List.getD, List.getElem?_map, List.getElem?_eq_getElem, hz]

/-- Effect of one quick-find union on the partition: the classes of `x` and
`y` merge, everything else is untouched. -/
theorem unionQF_linked {l : List Nat} {x y : Nat} :
    ∀ z w, z < l.length → w < l.length →
      (findQF (unionQF l x y) z = findQF (unionQF l x y) w ↔
        (findQF l z = findQF l w ∨
          ((findQF l z = findQF l x ∨ findQF l z = findQF l y) ∧
           (findQF l w = findQF l x ∨ findQF l w = findQF l y)))) := by
  intro z w hz hw
  by_cases hxy : findQF l x = findQF l y
  · unfold unionQF
    rw [if_pos hxy]
    constructor
    · intro h
      exact Or.inl h
    · rintro (h | ⟨h1, h2⟩)
      · exact h
      · rcases h1 with h1 | h1 <;> rcases h2 with h2 | h2
        · exact h1.trans h2.symm
        · exact h1.trans (hxy.trans h2.symm)
        · exact h1.trans (hxy.symm.trans h2.symm)
        · exact h1.trans h2.symm
  · unfold unionQF
    rw [if_neg hxy]
    rw [findQF_map hz, findQF_map hw]
    split_ifs with h1 h2 h2 <;> constructor <;> intro hh
    · exact Or.inr ⟨Or.inl h1, Or.inl h2⟩
    · rfl
    · exact Or.inr ⟨Or.inl h1, Or.inr hh.symm⟩
    · rcases hh with hh | ⟨hh1, hh2⟩
      · exact absurd (h1 ▸ hh).symm h2
      · rcases hh2 with hh2 | hh2
        · exact absurd hh2 h2
        · exact hh2.symm
    · exact Or.inr ⟨Or.inr hh, Or.inl h2⟩
    · rcases hh with hh | ⟨hh1, hh2⟩
      · exact absurd (hh.trans h2) h1
      · rcases hh1 with hh1 | hh1
        · exact absurd hh1 h1
        · exact hh1
    · exact Or.inl hh
    · rcases hh with hh | ⟨hh1, hh2⟩
      · exact hh
      · rcases hh1 with hh1 | hh1
        · exact absurd hh1 h1
        · rcases hh2 with hh2 | hh2
          · exact absurd hh2 h2
          · exact hh1.trans hh2.symm

/-- Quick-find worklist of unions realises the same generated partition. -/
theorem unionListQF_spec :
    ∀ (L : List (Nat × Nat)) (l : List Nat) (S : Nat → Nat → Prop),
      (∀ u v, S u v → u < l.length ∧ v < l.length) →
      (∀ u v, u < l.length → v < l.length →
        (findQF l u = findQF l v ↔ Relation.ReflTransGen S u v)) →
      (∀ xy ∈ L, xy.1 < l.length ∧ xy.2 < l.length) →
      (unionListQF l L).length = l.length ∧
      (∀ u v, u < l.length → v < l.length →
        (findQF (unionListQF l L) u = findQF (unionListQF l L) v ↔
          Relation.ReflTransGen (addEdges S L) u v)) := by
  intro L
  induction L with
  | nil =>
    intro l S hSb hpart hL
    refine ⟨rfl, ?_⟩
    intro u v hu hv
    show findQF l u = findQF l v ↔ _
    rw [hpart u v hu hv]
    exact rtg_congr (fun u v => (addEdges_nil S u v).symm) u v
  | cons hd tl ih =>
    intro l S hSb hpart hL
    have hx : hd.1 < l.length := (hL hd (List.mem_cons_self hd tl)).1
    have hy : hd.2 < l.length := (hL hd (List.mem_cons_self hd tl)).2
    have hstep : unionListQF l (hd :: tl) = unionListQF (unionQF l hd.1 hd.2) tl := by
      simp [unionListQF, List.foldl]
    rw [hstep]
    have hlen1 : (unionQF l hd.1 hd.2).length = l.length := unionQF_length l hd.1 hd.2
    have hpart1 : ∀ u v, u < (unionQF l hd.1 hd.2).length →
        v < (unionQF l hd.1 hd.2).length →
        (findQF (unionQF l hd.1 hd.2) u = findQF (unionQF l hd.1 hd.2) v ↔
          Relation.ReflTransGen (addE S hd.1 hd.2) u v) := by
      intro u v hu hv
      rw [hlen1] at hu hv
      exact merge_partition hSb hx hy hpart (unionQF_linked (x := hd.1) (y := hd.2)) u v hu hv
    have hSb1 : ∀ u v, addE S hd.1 hd.2 u v →
        u < (unionQF l hd.1 hd.2).length ∧ v < (unionQF l hd.1 hd.2).length := by
      intro u v huv
      rw [hlen1]
      rcases huv with h | ⟨rfl, rfl⟩ | ⟨rfl, rfl⟩
      · exact hSb u v h
      · exact ⟨hx, hy⟩
      · exact ⟨hy, hx⟩
    have hL1 : ∀ xy ∈ tl, xy.1 < (unionQF l hd.1 hd.2).length ∧
        xy.2 < (unionQF l hd.1 hd.2).length := by
      intro xy hxy
      rw [hlen1]
      exact hL xy (List.mem_cons_of_mem hd hxy)
    obtain ⟨m1, m2⟩ := ih (unionQF l hd.1 hd.2) (addE S hd.1 hd.2) hSb1 hpart1 hL1
    refine ⟨by rw [m1, hlen1], ?_⟩
    intro u v hu hv
    rw [m2 u v (by rw [hlen1]; exact hu) (by rw [hlen1]; exact hv)]
    exact rtg_congr (addEdges_cons S hd.1 hd.2 tl) u v

/-- Coupling between a weighted quick-union state and a quick-find state:
both are reachable-shaped and agree on everything observable. -/
def CoupledSt (P : Percolation) (Q : PercolationQF) : Prop :=
  Inv P ∧ InvQF Q ∧ P.n = Q.n ∧ P.grid = Q.grid ∧ P.openSitesCount = Q.openSitesCount

/-- Opening the same site on coupled states either fails identically or
yields coupled states. -/
theorem open_coupled {P : Percolation} {Q : PercolationQF} (hC : CoupledSt P Q)
    (row col : Int) :
    (∃ e, openE P row col = .error e ∧ openQF Q row col = .error e) ∨
    (∃ P' Q', openE P row col = .ok P' ∧ openQF Q row col = .ok Q' ∧ CoupledSt P' Q') := by
  obtain ⟨hP, hQ, hn, hg, hc⟩ := hC
  unfold openE openQF
  rw [← hn, ← hg]
  by_cases hv : row < 0 ∨ (P.n : Int) ≤ row ∨ col < 0 ∨ (P.n : Int) ≤ col
  · rw [if_pos hv, if_pos hv]
    exact Or.inl ⟨_, rfl, rfl⟩
  rw [if_neg hv, if_neg hv]
  obtain ⟨ri, ci, rfl, rfl, hr, hc'⟩ := valid_coords hv
  have hcast : (((ri : Int)) * P.n + ci).toNat = ri * P.n + ci := cast_idx P.n ri ci
  by_cases hop : P.grid.getD ((((ri : Int)) * P.n + ci).toNat) false = true
  · rw [if_pos hop, if_pos hop]
    exact Or.inr ⟨P, Q, rfl, rfl, hP, hQ, hn, hg, hc⟩
  · rw [if_neg hop, if_neg hop]
    have hok : openE P (ri : Int) (ci : Int) = .ok { P with
        grid := P.grid.set ((((ri : Int)) * P.n + ci).toNat) true,
        parent := (unionList (P.parent, P.size) (openPairs P.n
          (P.grid.set ((((ri : Int)) * P.n + ci).toNat) true) (ri : Int) (ci : Int))).1,
        size := (unionList (P.parent, P.size) (openPairs P.n
          (P.grid.set ((((ri : Int)) * P.n + ci).toNat) true) (ri : Int) (ci : Int))).2,
        openSitesCount := P.openSitesCount + 1 } := by
      unfold openE
      rw [if_neg hv, if_neg hop]
    have hP' := (openE_ok_inv hP hok).1
    refine Or.inr ⟨_, _, rfl, rfl, ?_⟩
    · refine ⟨hP', ?_, rfl, rfl, by rw [hc]⟩
      -- invariant for the quick-find side
      have hgl : ri * P.n + ci < P.grid.length := by
        rw [hP.glen]
        exact idx_lt hr hc'
      have hgset : P.grid.set ((((ri : Int)) * P.n + ci).toNat) true
          = P.grid.set (ri * P.n + ci) true := by rw [hcast]
      have hpairs : openPairs P.n (P.grid.set ((((ri : Int)) * P.n + ci).toNat) true)
            (ri : Int) (ci : Int)
          = openPairsN P.n (P.grid.set (ri * P.n + ci) true) ri ci := by
        rw [hgset]
        exact openPairs_eq_natural _ hr hc'
      have hLb : ∀ xy ∈ openPairsN P.n (P.grid.set (ri * P.n + ci) true) ri ci,
          xy.1 < Q.id.length ∧ xy.2 < Q.id.length := by
        intro xy hxy
        rw [hQ.ilen, ← hn]
        exact openPairsN_bounds hr hc' xy hxy
      have hSb : ∀ u v, Esym P.grid P.n u v → u < Q.id.length ∧ v < Q.id.length := by
        intro u v huv
        rw [hQ.ilen, ← hn]
        exact esym_lt huv
      have hpart0 : ∀ u v, u < Q.id.length → v < Q.id.length →
          (findQF Q.id u = findQF Q.id v ↔
            Relation.ReflTransGen (Esym P.grid P.n) u v) := by
        intro u v hu hv
        rw [hQ.ilen, ← hn] at hu hv
        have := hQ.part u v (by rw [← hn]; exact hu) (by rw [← hn]; exact hv)
        rw [← hg, ← hn] at this
        exact this
      obtain ⟨m1, m2⟩ := unionListQF_spec
        (openPairsN P.n (P.grid.set (ri * P.n + ci) true) ri ci)
        Q.id (Esym P.grid P.n) hSb hpart0 hLb
      have hedges := open_edge_iff hr hc' hP.glen
      refine ⟨hP.npos, ?_, ?_, ?_⟩
      · show (P.grid.set ((((ri : Int)) * P.n + ci).toNat) true).length = P.n * P.n
        rw [List.length_set, hP.glen]
      · show (unionListQF Q.id _).length = P.n * P.n + 2
        rw [hpairs, m1, hQ.ilen, ← hn]
      · intro x y hx hy
        have hx' : x < P.n * P.n + 2 := hx
        have hy' : y < P.n * P.n + 2 := hy
        show findQF (unionListQF Q.id _) x = findQF (unionListQF Q.id _) y ↔
          ECl (P.grid.set ((((ri : Int)) * P.n + ci).toNat) true) P.n x y
        rw [hpairs, hgset]
        rw [m2 x y (by rw [hQ.ilen, ← hn]; omega) (by rw [hQ.ilen, ← hn]; omega)]
        exact hedges x y


/-- Run a sequence of `open(row, col)` calls on the weighted backend,
starting from construction; an exception aborts the run. -/
def runW (nI : Int) (ops : List (Int × Int)) : Except String Percolation :=
  ops.foldl (fun e rc => e >>= fun P => openE P rc.1 rc.2) (mkPercolation nI)

/-- The same run on the quick-find backend. -/
def runQF (nI : Int) (ops : List (Int × Int)) : Except String PercolationQF :=
  ops.foldl (fun e rc => e >>= fun Q => openQF Q rc.1 rc.2) (mkPercolationQF nI)

/-- Coupling of the two backends' run results. -/
def CoupledRes : Except String Percolation → Except String PercolationQF → Prop
  | .error e, .error e' => e = e'
  | .ok P, .ok Q => CoupledSt P Q
  | _, _ => False

theorem foldl_coupled (ops : List (Int × Int)) :
    ∀ e1 e2, CoupledRes e1 e2 →
      CoupledRes (ops.foldl (fun e rc => e >>= fun P => openE P rc.1 rc.2) e1)
        (ops.foldl (fun e rc => e >>= fun Q => openQF Q rc.1 rc.2) e2) := by
  induction ops with
  | nil =>
    intro e1 e2 h
    exact h
  | cons hd tl ih =>
    intro e1 e2 h
    simp only [List.foldl]
    apply ih
    cases e1 with
    | error e =>
      cases e2 with
      | error e' =>
        have he : e = e' := h
        subst he
        show CoupledRes (Except.error e) (Except.error e)
        rfl
      | ok Q => exact (h : False).elim
    | ok P =>
      cases e2 with
      | error e' => exact (h : False).elim
      | ok Q =>
        show CoupledRes (openE P hd.1 hd.2) (openQF Q hd.1 hd.2)
        rcases open_coupled h hd.1 hd.2 with ⟨e, hE1, hE2⟩ | ⟨P2, Q2, h1, h2, hC⟩
        · rw [hE1, hE2]
          show e = e
          rfl
        · rw [h1, h2]
          exact hC

theorem run_coupled (nI : Int) (ops : List (Int × Int)) :
    CoupledRes (runW nI ops) (runQF nI ops) := by
  apply foldl_coupled
  unfold mkPercolation mkPercolationQF
  by_cases h : nI ≤ 0
  · rw [if_pos h, if_pos h]
    show ("Grid size must be positive" : String) = _
    rfl
  · rw [if_neg h, if_neg h]
    show CoupledSt (initP nI.toNat) (initQF nI.toNat)
    have hn : 0 < nI.toNat := by omega
    exact ⟨initP_inv hn, initQF_inv hn, rfl, rfl, rfl⟩

theorem coupled_isOpen {P : Percolation} {Q : PercolationQF} (h : CoupledSt P Q)
    (row col : Int) : isOpenE P row col = isOpenQF Q row col := by
  obtain ⟨_, _, hn, hg, _⟩ := h
  unfold isOpenE isOpenQF
  rw [← hn, ← hg]

theorem coupled_isFull {P : Percolation} {Q : PercolationQF} (h : CoupledSt P Q)
    (row col : Int) : (isFullE P row col).map Prod.fst = isFullQF Q row col := by
  obtain ⟨hP, hQ, hn, hg, hc⟩ := h
  unfold isFullE isFullQF
  rw [← hn, ← hg]
  by_cases hv : row < 0 ∨ (P.n : Int) ≤ row ∨ col < 0 ∨ (P.n : Int) ≤ col
  · rw [if_pos hv, if_pos hv]
    rfl
  rw [if_neg hv, if_neg hv]
  obtain ⟨ri, ci, rfl, rfl, hr, hc'⟩ := valid_coords hv
  have hcast : (((ri : Int)) * P.n + ci).toNat = ri * P.n + ci := cast_idx P.n ri ci
  have hidxlt : ri * P.n + ci < P.n * P.n := idx_lt hr hc'
  by_cases hop : P.grid.getD ((((ri : Int)) * P.n + ci).toNat) false = true
  · rw [if_pos hop, if_pos hop]
    show Except.ok (decide _) = Except.ok (decide _)
    congr 1
    rw [hcast]
    obtain ⟨d, hwfd⟩ := hP.wf
    have hxL : ri * P.n + ci < P.parent.length := by rw [hP.plen]; omega
    have hyL : P.n * P.n < P.parent.length := by rw [hP.plen]; omega
    obtain ⟨a1, b1, _, _, _, _⟩ := find2_spec hwfd hxL hyL
    rw [a1, b1]
    have hqp : findQF Q.id (ri * P.n + ci) = findQF Q.id (P.n * P.n) ↔
        ECl P.grid P.n (ri * P.n + ci) (P.n * P.n) := by
      have hb1 : ri * P.n + ci < Q.n * Q.n + 2 := by rw [← hn]; omega
      have hb2 : P.n * P.n < Q.n * Q.n + 2 := by rw [← hn]; omega
      have hthis := hQ.part (ri * P.n + ci) (P.n * P.n) hb1 hb2
      rw [← hg, ← hn] at hthis
      exact hthis
    rw [decide_eq_decide]
    rw [hqp]
    exact hP.part (ri * P.n + ci) (P.n * P.n) (by omega) (by omega)
  · rw [if_neg hop, if_neg hop]
    rfl

theorem coupled_percolates {P : Percolation} {Q : PercolationQF} (h : CoupledSt P Q) :
    (percolatesE P).1 = percolatesQF Q := by
  obtain ⟨hP, hQ, hn, hg, hc⟩ := h
  obtain ⟨d, hwfd⟩ := hP.wf
  have hxL : P.n * P.n < P.parent.length := by rw [hP.plen]; omega
  have hyL : P.n * P.n + 1 < P.parent.length := by rw [hP.plen]; omega
  obtain ⟨a1, b1, _, _, _, _⟩ := find2_spec hwfd hxL hyL
  show decide _ = _
  unfold percolatesQF
  rw [a1, b1, ← hn]
  rw [decide_eq_decide]
  have hqp : findQF Q.id (P.n * P.n) = findQF Q.id (P.n * P.n + 1) ↔
      ECl P.grid P.n (P.n * P.n) (P.n * P.n + 1) := by
    have hb1 : P.n * P.n < Q.n * Q.n + 2 := by rw [← hn]; omega
    have hb2 : P.n * P.n + 1 < Q.n * Q.n + 2 := by rw [← hn]; omega
    have hthis := hQ.part (P.n * P.n) (P.n * P.n + 1) hb1 hb2
    rw [← hg, ← hn] at hthis
    exact hthis
  rw [hqp]
  exact hP.part (P.n * P.n) (P.n * P.n + 1) (by omega) (by omega)


/-! ### Operation traces and observational purity -/

/-- One externally visible operation on a grid. -/
inductive POp where
  | opn (row col : Int)
  | qOpen (row col : Int)
  | qFull (row col : Int)
  | qPerc
  | qCount
deriving DecidableEq

/-- Observable outputs of the operations. -/
inductive Obs where
  | unit
  | b (x : Bool)
  | nat (k : Nat)
deriving DecidableEq

/-- Run one operation: output and successor state. -/
def stepE (P : Percolation) : POp → Except String (Obs × Percolation)
  | .opn row col => (openE P row col).map (fun P2 => (Obs.unit, P2))
  | .qOpen row col => (isOpenE P row col).map (fun v => (Obs.b v, P))
  | .qFull row col => (isFullE P row col).map (fun bp => (Obs.b bp.1, bp.2))
  | .qPerc => .ok (Obs.b (percolatesE P).1, (percolatesE P).2)
  | .qCount => .ok (Obs.nat (numberOfOpenSites P), P)

/-- Trace of outputs of a sequence of operations; an exception ends the
trace with its error. -/
def traceE (P : Percolation) : List POp → List (Except String Obs)
  | [] => []
  | o :: rest =>
    match stepE P o with
    | .error e => [.error e]
    | .ok obP => .ok obP.1 :: traceE obP.2 rest

/-- Observational equivalence of two weighted-backend states: both are
invariant-shaped and agree on everything any operation can observe. -/
def ObsEq (P Q : Percolation) : Prop :=
  Inv P ∧ Inv Q ∧ P.n = Q.n ∧ P.grid = Q.grid ∧ P.openSitesCount = Q.openSitesCount

theorem bool_eq_of_true_iff {a b : Bool} (h : (a = true) ↔ (b = true)) : a = b := by
  cases a <;> cases b <;> simp_all

/-- Opening the same site in observationally equivalent states fails
identically or stays observationally equivalent. -/
theorem open_obsEq {P Q : Percolation} (h : ObsEq P Q) (row col : Int) :
    (∃ e, openE P row col = .error e ∧ openE Q row col = .error e) ∨
    (∃ P2 Q2, openE P row col = .ok P2 ∧ openE Q row col = .ok Q2 ∧ ObsEq P2 Q2) := by
  obtain ⟨hP, hQ, hn, hg, hc⟩ := h
  have hokP : ∀ r, openE P row col = r → openE P row col = r := fun r hr => hr
  unfold openE
  rw [← hn, ← hg]
  by_cases hv : row < 0 ∨ (P.n : Int) ≤ row ∨ col < 0 ∨ (P.n : Int) ≤ col
  · rw [if_pos hv, if_pos hv]
    exact Or.inl ⟨_, rfl, rfl⟩
  rw [if_neg hv, if_neg hv]
  by_cases hop : P.grid.getD ((row * P.n + col).toNat) false = true
  · rw [if_pos hop, if_pos hop]
    exact Or.inr ⟨P, Q, rfl, rfl, hP, hQ, hn, hg, hc⟩
  · rw [if_neg hop, if_neg hop]
    refine Or.inr ⟨_, _, rfl, rfl, ?_⟩
    have hok1 : openE P row col = Except.ok { P with
        grid := P.grid.set ((row * P.n + col).toNat) true,
        parent := (unionList (P.parent, P.size) (openPairs P.n
          (P.grid.set ((row * P.n + col).toNat) true) row col)).1,
        size := (unionList (P.parent, P.size) (openPairs P.n
          (P.grid.set ((row * P.n + col).toNat) true) row col)).2,
        openSitesCount := P.openSitesCount + 1 } := by
      unfold openE
      rw [if_neg hv, if_neg hop]
    have hok2 : openE Q row col = Except.ok { Q with
        n := P.n,
        grid := P.grid.set ((row * P.n + col).toNat) true,
        parent := (unionList (Q.parent, Q.size) (openPairs P.n
          (P.grid.set ((row * P.n + col).toNat) true) row col)).1,
        size := (unionList (Q.parent, Q.size) (openPairs P.n
          (P.grid.set ((row * P.n + col).toNat) true) row col)).2,
        openSitesCount := Q.openSitesCount + 1 } := by
      unfold openE
      rw [← hn, ← hg]
      rw [if_neg hv, if_neg hop]
    exact ⟨(openE_ok_inv hP hok1).1, (openE_ok_inv hQ hok2).1, rfl, rfl, by rw [hc]⟩

/-- `isFull` on observationally equivalent states fails identically or gives
the same answer and observationally equivalent successors. -/
theorem isFull_obsEq {P Q : Percolation} (h : ObsEq P Q) (row col : Int) :
    (∃ e, isFullE P row col = .error e ∧ isFullE Q row col = .error e) ∨
    (∃ b P2 Q2, isFullE P row col = .ok (b, P2) ∧ isFullE Q row col = .ok (b, Q2) ∧
      ObsEq P2 Q2) := by
  obtain ⟨hP, hQ, hn, hg, hc⟩ := h
  unfold isFullE
  rw [← hn, ← hg]
  by_cases hv : row < 0 ∨ (P.n : Int) ≤ row ∨ col < 0 ∨ (P.n : Int) ≤ col
  · rw [if_pos hv, if_pos hv]
    exact Or.inl ⟨_, rfl, rfl⟩
  rw [if_neg hv, if_neg hv]
  obtain ⟨ri, ci, rfl, rfl, hr, hc'⟩ := valid_coords hv
  have hcast : (((ri : Int)) * P.n + ci).toNat = ri * P.n + ci := cast_idx P.n ri ci
  have hidxlt : ri * P.n + ci < P.n * P.n := idx_lt hr hc'
  by_cases hop : P.grid.getD ((((ri : Int)) * P.n + ci).toNat) false = true
  · rw [if_pos hop, if_pos hop]
    obtain ⟨dP, hwfP⟩ := hP.wf
    obtain ⟨dQ, hwfQ⟩ := hQ.wf
    have hxLP : (((ri : Int)) * P.n + ci).toNat < P.parent.length := by
      rw [hcast, hP.plen]; omega
    have hyLP : P.n * P.n < P.parent.length := by rw [hP.plen]; omega
    have hxLQ : (((ri : Int)) * P.n + ci).toNat < Q.parent.length := by
      rw [hcast, hQ.plen, ← hn]; omega
    have hyLQ : P.n * P.n < Q.parent.length := by rw [hQ.plen, ← hn]; omega
    obtain ⟨a1, b1, hlen1, hwf1, hroots1, hrf1⟩ := find2_spec hwfP hxLP hyLP
    obtain ⟨a2, b2, hlen2, hwf2, hroots2, hrf2⟩ := find2_spec hwfQ hxLQ hyLQ
    have hbool : decide ((find P.parent ((((ri : Int)) * P.n + ci).toNat)).1 =
          (find (find P.parent ((((ri : Int)) * P.n + ci).toNat)).2 (P.n * P.n)).1) =
        decide ((find Q.parent ((((ri : Int)) * P.n + ci).toNat)).1 =
          (find (find Q.parent ((((ri : Int)) * P.n + ci).toNat)).2 (P.n * P.n)).1) := by
      rw [a1, b1, a2, b2, decide_eq_decide, hcast]
      have hPpart := hP.part (ri * P.n + ci) (P.n * P.n) (by omega) (by omega)
      have hQpart := hQ.part (ri * P.n + ci) (P.n * P.n)
        (by rw [← hn]; omega) (by rw [← hn]; omega)
      rw [← hn, ← hg] at hQpart
      rw [hPpart, hQpart]
    have hinv2 := inv_replace_parent hQ hlen2 ⟨dQ, hwf2⟩ hroots2 hrf2
    have hstq : ({ Q with
        n := P.n,
        grid := P.grid,
        parent := (find (find Q.parent ((((ri : Int)) * P.n + ci).toNat)).2 (P.n * P.n)).2 }
        : Percolation)
        = { Q with parent :=
            (find (find Q.parent ((((ri : Int)) * P.n + ci).toNat)).2 (P.n * P.n)).2 } := by
      rw [hn, hg]
    refine Or.inr ⟨decide ((find P.parent ((((ri : Int)) * P.n + ci).toNat)).1 =
        (find (find P.parent ((((ri : Int)) * P.n + ci).toNat)).2 (P.n * P.n)).1),
      { P with parent :=
          (find (find P.parent ((((ri : Int)) * P.n + ci).toNat)).2 (P.n * P.n)).2 },
      { Q with
        n := P.n,
        grid := P.grid,
        parent := (find (find Q.parent ((((ri : Int)) * P.n + ci).toNat)).2 (P.n * P.n)).2 },
      rfl, ?_,
      inv_replace_parent hP hlen1 ⟨dP, hwf1⟩ hroots1 hrf1,
      by rw [hstq]; exact hinv2, rfl, rfl, hc⟩
    show (Except.ok (decide ((find Q.parent ((((ri : Int)) * P.n + ci).toNat)).1 =
          (find (find Q.parent ((((ri : Int)) * P.n + ci).toNat)).2 (P.n * P.n)).1),
        { Q with
          n := P.n,
          grid := P.grid,
          parent := (find (find Q.parent ((((ri : Int)) * P.n + ci).toNat)).2 (P.n * P.n)).2 })
        : Except String (Bool × Percolation))
      = Except.ok (decide ((find P.parent ((((ri : Int)) * P.n + ci).toNat)).1 =
          (find (find P.parent ((((ri : Int)) * P.n + ci).toNat)).2 (P.n * P.n)).1),
        { Q with
          n := P.n,
          grid := P.grid,
          parent := (find (find Q.parent ((((ri : Int)) * P.n + ci).toNat)).2 (P.n * P.n)).2 })
    rw [hbool]
  · rw [if_neg hop, if_neg hop]
    exact Or.inr ⟨false, P, Q, rfl, rfl, hP, hQ, hn, hg, hc⟩

/-- `percolates` on observationally equivalent states gives the same answer
and observationally equivalent successors. -/
theorem perc_obsEq {P Q : Percolation} (h : ObsEq P Q) :
    (percolatesE P).1 = (percolatesE Q).1 ∧ ObsEq (percolatesE P).2 (percolatesE Q).2 := by
  obtain ⟨hP, hQ, hn, hg, hc⟩ := h
  obtain ⟨s1, s2, s3, s4, s5, s6, s7⟩ := percolatesE_spec hP
  obtain ⟨t1, t2, t3, t4, t5, t6, t7⟩ := percolatesE_spec hQ
  constructor
  · apply bool_eq_of_true_iff
    rw [s7, t7, ← hn, ← hg]
  · exact ⟨s1, t1, by rw [s2, t2, hn], by rw [s3, t3, hg], by rw [s5, t5, hc]⟩

/-- One step of any operation preserves observational equivalence and
produces identical observable results. -/
theorem step_obsEq {P Q : Percolation} (h : ObsEq P Q) (o : POp) :
    (∃ e, stepE P o = .error e ∧ stepE Q o = .error e) ∨
    (∃ ob P2 Q2, stepE P o = .ok (ob, P2) ∧ stepE Q o = .ok (ob, Q2) ∧ ObsEq P2 Q2) := by
  obtain ⟨hP, hQ, hn, hg, hc⟩ := h
  cases o with
  | opn row col =>
    rcases open_obsEq ⟨hP, hQ, hn, hg, hc⟩ row col with ⟨e, h1, h2⟩ | ⟨P2, Q2, h1, h2, h3⟩
    · refine Or.inl ⟨e, ?_, ?_⟩ <;> simp [stepE, h1, h2, Except.map]
    · refine Or.inr ⟨Obs.unit, P2, Q2, ?_, ?_, h3⟩ <;> simp [stepE, h1, h2, Except.map]
  | qOpen row col =>
    have he : isOpenE P row col = isOpenE Q row col := by
      unfold isOpenE
      rw [← hn, ← hg]
    cases hres : isOpenE P row col with
    | error e =>
      refine Or.inl ⟨e, ?_, ?_⟩ <;>
        simp [stepE, hres, ← he, Except.map]
    | ok v =>
      refine Or.inr ⟨Obs.b v, P, Q, ?_, ?_, hP, hQ, hn, hg, hc⟩ <;>
        simp [stepE, hres, ← he, Except.map]
  | qFull row col =>
    rcases isFull_obsEq ⟨hP, hQ, hn, hg, hc⟩ row col with ⟨e, h1, h2⟩ |
      ⟨b, P2, Q2, h1, h2, h3⟩
    · refine Or.inl ⟨e, ?_, ?_⟩ <;> simp [stepE, h1, h2, Except.map]
    · refine Or.inr ⟨Obs.b b, P2, Q2, ?_, ?_, h3⟩ <;> simp [stepE, h1, h2, Except.map]
  | qPerc =>
    obtain ⟨h1, h2⟩ := perc_obsEq ⟨hP, hQ, hn, hg, hc⟩
    exact Or.inr ⟨Obs.b (percolatesE P).1, (percolatesE P).2, (percolatesE Q).2,
      rfl, by rw [h1]; rfl, h2⟩
  | qCount =>
    refine Or.inr ⟨Obs.nat (numberOfOpenSites P), P, Q, rfl, ?_, hP, hQ, hn, hg, hc⟩
    show Except.ok (Obs.nat Q.openSitesCount, Q) = _
    rw [← hc]
    rfl

/-- Observationally equivalent states produce identical traces under every
operation sequence. -/
theorem trace_obsEq {P Q : Percolation} (h : ObsEq P Q) :
    ∀ ops, traceE P ops = traceE Q ops := by
  intro ops
  induction ops generalizing P Q with
  | nil => rfl
  | cons o rest ih =>
    rcases step_obsEq h o with ⟨e, h1, h2⟩ | ⟨ob, P2, Q2, h1, h2, h3⟩
    · simp [traceE, h1, h2]
    · simp only [traceE, h1, h2]
      rw [ih h3]


/-! ### The Monte-Carlo estimator (`PercolationStats`) -/

/-- One trial of `PercolationStats`: while the grid does not percolate,
draw a site from the random stream (rejection-sampling already-open picks
through `isOpen`) and open it.  The C++ loop has no iteration bound (it
terminates with probability 1); the fuel models that, with `none` for
exhausted fuel.  Returns the percolated state and the next stream
position. -/
def trialLoop (stream : Nat → Nat × Nat) : Nat → Percolation → Nat →
    Option (Percolation × Nat)
  | _, _, 0 => none
  | pos, P, fuel+1 =>
    let bp := percolatesE P
    if bp.1 then some (bp.2, pos)
    else
      let rc := stream pos
      match isOpenE bp.2 (rc.1 : Int) (rc.2 : Int) with
      | .error _ => none
      | .ok true => trialLoop stream (pos+1) bp.2 fuel
      | .ok false =>
        match openE bp.2 (rc.1 : Int) (rc.2 : Int) with
        | .error _ => none
        | .ok P2 => trialLoop stream (pos+1) P2 fuel

/-- Run `t` independent trials on fresh `n`-by-`n` grids, collecting the
threshold `openCount / n²` of each, in trial order. -/
def runTrials (n : Nat) (stream : Nat → Nat × Nat) : Nat → Nat → Nat →
    Option (List ℚ)
  | 0, _, _ => some []
  | t+1, pos, fuel =>
    match trialLoop stream pos (initP n) fuel with
    | none => none
    | some Pp =>
      match runTrials n stream t Pp.2 fuel with
      | none => none
      | some rest =>
        some (((Pp.1.openSitesCount : ℚ) / ((n * n : Nat) : ℚ)) :: rest)

/-- `PercolationStats::PercolationStats(int n, int trials)`: validates both
arguments before any trial runs, then performs the trials.  The random
generator is modelled by the injected `stream`, and non-termination of the
rejection loop by fuel.  The floating-point statistics derived afterwards
are outside this model. -/
def mkPercolationStats (nI trials : Int) (stream : Nat → Nat × Nat) (fuel : Nat) :
    Except String (Option (List ℚ)) :=
  if nI ≤ 0 then .error "Grid size n must be positive"
  else if trials ≤ 0 then .error "Number of trials must be positive"
  else .ok (runTrials nI.toNat stream trials.toNat 0 fuel)


/-! ### Concrete helpers for exercising the claims -/

instance exceptDecEq {e a : Type} [DecidableEq e] [DecidableEq a] : DecidableEq (Except e a)
  | .error x, .error y =>
    if h : x = y then .isTrue (congrArg Except.error h)
    else .isFalse (fun hc => h (Except.error.inj hc))
  | .error _, .ok _ => .isFalse (fun hc => Except.noConfusion hc)
  | .ok _, .error _ => .isFalse (fun hc => Except.noConfusion hc)
  | .ok x, .ok y =>
    if h : x = y then .isTrue (congrArg Except.ok h)
    else .isFalse (fun hc => h (Except.ok.inj hc))

/-- Total wrapper of `openE`: an invalid call leaves the state unchanged. -/
def openBang (P : Percolation) (row col : Int) : Percolation :=
  match openE P row col with
  | .ok P2 => P2
  | .error _ => P

/-- Total wrapper of `isFullE`. -/
def fullBang (P : Percolation) (row col : Int) : Bool × Percolation :=
  match isFullE P row col with
  | .ok bp => bp
  | .error _ => (false, P)

/-- A 3×3 state with (0,0), (1,0), (2,0), (2,2) open: column 0 percolates
and the isolated bottom-corner site (2,2) exhibits backwash. -/
def cexP : Percolation :=
  openBang (openBang (openBang (openBang (initP 3) 0 0) 1 0) 2 0) 2 2

/-- The 1×1 grid with its single site opened. -/
def Pw1 : Percolation := openBang (initP 1) 0 0

/-- A small fixed schedule of open calls. -/
def ops1 : List (Int × Int) := [(0, 0), (1, 0)]

/-- The operations the spec treats as queries (everything except `open`). -/
def IsQuery : POp → Prop
  | POp.opn _ _ => False
  | _ => True

/-- A set closed under a step relation contains everything the reflexive
transitive closure reaches from it. -/
theorem rtg_closed {r : Nat → Nat → Prop} {A : Nat → Prop}
    (hA : ∀ u v, A u → r u v → A v) {x y : Nat}
    (h : Relation.ReflTransGen r x y) (hx : A x) : A y := by
  induction h with
  | refl => exact hx
  | tail h1 h2 ih => exact hA _ _ ih h2

/-! ### The claims -/

/-- Claim C1: for every n > 0 and every fixed sequence of open(row, col)
calls, the weighted quick-union backend and the quick-find backend fail
identically after every prefix of the sequence, and on success return
identical isOpen, isFull, percolates, and open-count results. -/
theorem C1_backend_equivalence (nI : Int) (hn : 0 < nI) (ops : List (Int × Int))
    (k : Nat) :
    (∀ e, runW nI (ops.take k) = .error e ↔ runQF nI (ops.take k) = .error e) ∧
    (∀ P Q, runW nI (ops.take k) = .ok P → runQF nI (ops.take k) = .ok Q →
      (∀ row col, isOpenE P row col = isOpenQF Q row col) ∧
      (∀ row col, (isFullE P row col).map Prod.fst = isFullQF Q row col) ∧
      (percolatesE P).1 = percolatesQF Q ∧
      numberOfOpenSites P = numberOfOpenSitesQF Q) := by
  have h := run_coupled nI (ops.take k)
  constructor
  · intro e
    constructor
    · intro h1
      rw [h1] at h
      cases hq : runQF nI (ops.take k) with
      | error e2 =>
        rw [hq] at h
        have he : e = e2 := h
        rw [he]
      | ok Q =>
        rw [hq] at h
        exact (h : False).elim
    · intro h1
      rw [h1] at h
      cases hw : runW nI (ops.take k) with
      | error e2 =>
        rw [hw] at h
        have he : e2 = e := h
        rw [he]
      | ok P =>
        rw [hw] at h
        exact (h : False).elim
  · intro P Q h1 h2
    rw [h1, h2] at h
    have hcs : CoupledSt P Q := h
    exact ⟨fun row col => coupled_isOpen hcs row col,
      fun row col => coupled_isFull hcs row col, coupled_percolates hcs,
      hcs.2.2.2.2⟩

theorem C1_backend_equivalence_witness :
    (0 : Int) < 2 ∧
    ((∀ e, runW 2 (ops1.take 2) = .error e ↔ runQF 2 (ops1.take 2) = .error e) ∧
     (∀ P Q, runW 2 (ops1.take 2) = .ok P → runQF 2 (ops1.take 2) = .ok Q →
       (∀ row col, isOpenE P row col = isOpenQF Q row col) ∧
       (∀ row col, (isFullE P row col).map Prod.fst = isFullQF Q row col) ∧
       (percolatesE P).1 = percolatesQF Q ∧
       numberOfOpenSites P = numberOfOpenSitesQF Q)) :=
  ⟨by decide, C1_backend_equivalence 2 (by decide) ops1 2⟩

/-- Claim C2, counterexample: `cexP` is reachable, its site (2,2) (index 8)
is open, `isFull(2, 2)` answers true, yet no chain of axis-adjacent open
sites joins (2,2) to the top row: the claimed characterisation of isFull
fails on reachable states (backwash through the virtual bottom). -/
theorem C2_counterexample :
    Reachable cexP ∧ cexP.n = 3 ∧
    (isFullE cexP 2 2).map Prod.fst = .ok true ∧
    siteOpen cexP.grid 8 ∧
    ¬ topAtt cexP.grid 3 8 := by
  refine ⟨?_, by decide, by decide, by decide, ?_⟩
  · have h0 : Reachable (initP 3) := Reachable.init 3 (by omega)
    have e1 : openE (initP 3) 0 0 = .ok (openBang (initP 3) 0 0) := by decide
    have h1 := Reachable.openStep 0 0 h0 e1
    have e2 : openE (openBang (initP 3) 0 0) 1 0 =
        .ok (openBang (openBang (initP 3) 0 0) 1 0) := by decide
    have h2 := Reachable.openStep 1 0 h1 e2
    have e3 : openE (openBang (openBang (initP 3) 0 0) 1 0) 2 0 =
        .ok (openBang (openBang (openBang (initP 3) 0 0) 1 0) 2 0) := by decide
    have h3 := Reachable.openStep 2 0 h2 e3
    have e4 : openE (openBang (openBang (openBang (initP 3) 0 0) 1 0) 2 0) 2 2 =
        .ok cexP := by decide
    exact Reachable.openStep 2 2 h3 e4
  · rintro ⟨t, htl, hdiv, hopen, hconn⟩
    have ht0 : t = 0 := by
      have hd : ∀ u, u < 9 → u / 3 = 0 → siteOpen cexP.grid u → u = 0 := by decide
      exact hd t htl hdiv hopen
    subst ht0
    have hstep : ∀ u v, (u = 0 ∨ u = 3 ∨ u = 6) → adjE cexP.grid 3 u v →
        (v = 0 ∨ v = 3 ∨ v = 6) := by
      intro u v hu hadj
      have hu9 : u < 9 := hadj.1
      have hv9 : v < 9 := hadj.2.1
      have hd : ∀ a, a < 9 → ∀ b, b < 9 → (a = 0 ∨ a = 3 ∨ a = 6) →
          adjE cexP.grid 3 a b → (b = 0 ∨ b = 3 ∨ b = 6) := by decide
      exact hd u hu9 v hv9 hu hadj
    have h8 : (8 : Nat) = 0 ∨ (8 : Nat) = 3 ∨ (8 : Nat) = 6 :=
      rtg_closed hstep hconn (Or.inl rfl)
    omega

/-- Claim C2, amended: in every reachable state, isFull on a valid site
answers true iff the site is open and either joined to the top row by a
chain of axis-adjacent open sites, or the grid percolates (one open chain
touches both boundaries) and the site is joined to the bottom row by such
a chain (backwash). -/
theorem C2_isFull_amended {P : Percolation} (hR : Reachable P) {row col : Int}
    {b : Bool} {P2 : Percolation} (h : isFullE P row col = .ok (b, P2)) :
    b = true ↔
      (siteOpen P.grid ((row * P.n + col).toNat) ∧
        (topAtt P.grid P.n ((row * P.n + col).toNat) ∨
          (PercP P.grid P.n ∧ botAtt P.grid P.n ((row * P.n + col).toNat)))) := by
  have hI := reachable_inv hR
  have hspec := isFullE_ok hI h
  have hval : ¬(row < 0 ∨ (P.n : Int) ≤ row ∨ col < 0 ∨ (P.n : Int) ≤ col) := by
    intro hv
    unfold isFullE at h
    rw [if_pos hv] at h
    exact Except.noConfusion h
  obtain ⟨ri, ci, hre, hce, hr, hc⟩ := valid_coords hval
  subst hre
  subst hce
  rw [hspec.2.2.2.2.2.2, cast_idx P.n ri ci]
  exact and_congr_right fun _ => ecl_vtop_iff (idx_lt hr hc)

theorem C2_isFull_amended_witness :
    Reachable Pw1 ∧
    isFullE Pw1 0 0 = .ok ((fullBang Pw1 0 0).1, (fullBang Pw1 0 0).2) ∧
    ((fullBang Pw1 0 0).1 = true ↔
      (siteOpen Pw1.grid (((0 : Int) * Pw1.n + 0).toNat) ∧
        (topAtt Pw1.grid Pw1.n (((0 : Int) * Pw1.n + 0).toNat) ∨
          (PercP Pw1.grid Pw1.n ∧
            botAtt Pw1.grid Pw1.n (((0 : Int) * Pw1.n + 0).toNat))))) := by
  have hR : Reachable Pw1 :=
    Reachable.openStep 0 0 (Reachable.init 1 (by omega)) (by decide)
  have he : isFullE Pw1 0 0 = .ok ((fullBang Pw1 0 0).1, (fullBang Pw1 0 0).2) := by
    decide
  exact ⟨hR, he, C2_isFull_amended hR he⟩

/-- Claim C3: in every reachable state, isFull answering true on a site
implies isOpen answers true on that site. -/
theorem C3_full_implies_open {P : Percolation} (hR : Reachable P) {row col : Int}
    {P2 : Percolation} (h : isFullE P row col = .ok (true, P2)) :
    isOpenE P row col = .ok true := by
  have hval : ¬(row < 0 ∨ (P.n : Int) ≤ row ∨ col < 0 ∨ (P.n : Int) ≤ col) := by
    intro hv
    unfold isFullE at h
    rw [if_pos hv] at h
    exact Except.noConfusion h
  unfold isFullE at h
  rw [if_neg hval] at h
  unfold isOpenE
  rw [if_neg hval]
  by_cases hop : P.grid.getD ((row * P.n + col).toNat) false = true
  · rw [hop]
  · rw [if_neg hop] at h
    injection h with h1
    injection h1 with h2 h3
    exact absurd h2 (by decide)

theorem C3_full_implies_open_witness :
    Reachable Pw1 ∧ isFullE Pw1 0 0 = .ok (true, (fullBang Pw1 0 0).2) ∧
    isOpenE Pw1 0 0 = .ok true := by
  have hR : Reachable Pw1 :=
    Reachable.openStep 0 0 (Reachable.init 1 (by omega)) (by decide)
  have he : isFullE Pw1 0 0 = .ok (true, (fullBang Pw1 0 0).2) := by decide
  exact ⟨hR, he, C3_full_implies_open hR he⟩

/-- Claim C4: percolates is monotone non-decreasing along open calls: in a
reachable state where percolates answers true, it still answers true after
any further successful open call. -/
theorem C4_percolates_monotone {P : Percolation} (hR : Reachable P)
    (hperc : (percolatesE P).1 = true) {row col : Int} {P2 : Percolation}
    (h : openE P row col = .ok P2) :
    (percolatesE P2).1 = true := by
  have hI := reachable_inv hR
  obtain ⟨hI2, hn2, hmono, _⟩ := openE_ok_inv hI h
  rw [(percolatesE_spec hI2).2.2.2.2.2.2]
  rw [(percolatesE_spec hI).2.2.2.2.2.2] at hperc
  rw [hn2]
  exact Relation.ReflTransGen.mono (fun a b hab => esym_mono hmono hab) hperc

theorem C4_percolates_monotone_witness :
    Reachable Pw1 ∧ (percolatesE Pw1).1 = true ∧ openE Pw1 0 0 = .ok Pw1 ∧
    (percolatesE Pw1).1 = true := by
  have hR : Reachable Pw1 :=
    Reachable.openStep 0 0 (Reachable.init 1 (by omega)) (by decide)
  have he : openE Pw1 0 0 = .ok Pw1 := by decide
  exact ⟨hR, by decide, he, C4_percolates_monotone hR (by decide) he⟩

/-- Claim C5: open is idempotent: after a successful open in a reachable
state, opening the same site again succeeds and returns the very same
state, so all isOpen, isFull, and numberOfOpenSites results coincide with
the single-call state. -/
theorem C5_open_idempotent {P : Percolation} (hR : Reachable P) {row col : Int}
    {P1 : Percolation} (h : openE P row col = .ok P1) :
    openE P1 row col = .ok P1 := by
  have hI := reachable_inv hR
  obtain ⟨hI1, hn1, _, hopen1⟩ := openE_ok_inv hI h
  have hval : ¬(row < 0 ∨ (P.n : Int) ≤ row ∨ col < 0 ∨ (P.n : Int) ≤ col) := by
    intro hv
    unfold openE at h
    rw [if_pos hv] at h
    exact Except.noConfusion h
  have hopen1a : P1.grid.getD ((row * P.n + col).toNat) false = true := hopen1
  unfold openE
  rw [hn1, if_neg hval, if_pos hopen1a]

theorem C5_open_idempotent_witness :
    Reachable (initP 1) ∧ openE (initP 1) 0 0 = .ok Pw1 ∧
    openE Pw1 0 0 = .ok Pw1 := by
  have hR : Reachable (initP 1) := Reachable.init 1 (by omega)
  have he : openE (initP 1) 0 0 = .ok Pw1 := by decide
  exact ⟨hR, he, C5_open_idempotent hR he⟩


/-- Claim C6: under the union-find invariants, unionSites leaves the sizes
and the partition unchanged when the two sites already share a root;
otherwise it re-parents the root of the smaller component under the root
of the larger (on a size tie, y's root goes under x's root), adds the two
component sizes into the surviving root's size, and preserves the
invariant that each root's recorded size is its component's cardinality. -/
theorem C6_union_spec {p s : List Nat} {d : Nat → Int} (hwf : UFWF p d)
    (hs : s.length = p.length) (hsi : SizeInv p s) {x y : Nat}
    (hx : x < p.length) (hy : y < p.length) :
    (rootOf p x = rootOf p y →
      (unionSites p s x y).2 = s ∧
      ∀ z, z < p.length → rootOf (unionSites p s x y).1 z = rootOf p z) ∧
    (rootOf p x ≠ rootOf p y →
      parentOf (unionSites p s x y).1 (uLoser p s x y) = uWinner p s x y ∧
      (unionSites p s x y).2.getD (uWinner p s x y) 0 =
        s.getD (rootOf p x) 0 + s.getD (rootOf p y) 0 ∧
      (s.getD (rootOf p x) 0 < s.getD (rootOf p y) 0 →
        uLoser p s x y = rootOf p x ∧ uWinner p s x y = rootOf p y) ∧
      (¬ s.getD (rootOf p x) 0 < s.getD (rootOf p y) 0 →
        uLoser p s x y = rootOf p y ∧ uWinner p s x y = rootOf p x)) ∧
    SizeInv (unionSites p s x y).1 (unionSites p s x y).2 := by
  refine ⟨?_, ?_, unionSites_sizeInv hwf hx hy hs hsi⟩
  · intro heq
    obtain ⟨_, _, hroots, _, hs2⟩ := unionSites_same_spec (s := s) hwf hx hy heq
    exact ⟨hs2, hroots⟩
  · intro hne
    obtain ⟨hlen, hwf2, hform, hrf, hpar, hs2⟩ :=
      unionSites_diff_spec (s := s) hwf hx hy hne
    have hwL : uWinner p s x y < s.length := by
      rcases uwl_cases p s x y with ⟨hw, _⟩ | ⟨hw, _⟩
      · rw [hw, hs]; exact rootOf_lt hwf hy
      · rw [hw, hs]; exact rootOf_lt hwf hx
    refine ⟨hpar, ?_, ?_, ?_⟩
    · rw [hs2]
      exact getD_set_self hwL
    · intro hlt
      unfold uLoser uWinner
      rw [if_pos hlt, if_pos hlt]
      exact ⟨rfl, rfl⟩
    · intro hlt
      unfold uLoser uWinner
      rw [if_neg hlt, if_neg hlt]
      exact ⟨rfl, rfl⟩

theorem C6_union_spec_witness :
    UFWF [0, 1] (fun _ => (0 : Int)) ∧
    ([1, 1] : List Nat).length = ([0, 1] : List Nat).length ∧
    SizeInv [0, 1] [1, 1] ∧
    0 < ([0, 1] : List Nat).length ∧ 1 < ([0, 1] : List Nat).length ∧
    ((rootOf [0, 1] 0 = rootOf [0, 1] 1 →
      (unionSites [0, 1] [1, 1] 0 1).2 = [1, 1] ∧
      ∀ z, z < ([0, 1] : List Nat).length →
        rootOf (unionSites [0, 1] [1, 1] 0 1).1 z = rootOf [0, 1] z) ∧
    (rootOf [0, 1] 0 ≠ rootOf [0, 1] 1 →
      parentOf (unionSites [0, 1] [1, 1] 0 1).1 (uLoser [0, 1] [1, 1] 0 1) =
        uWinner [0, 1] [1, 1] 0 1 ∧
      (unionSites [0, 1] [1, 1] 0 1).2.getD (uWinner [0, 1] [1, 1] 0 1) 0 =
        ([1, 1] : List Nat).getD (rootOf [0, 1] 0) 0 +
          ([1, 1] : List Nat).getD (rootOf [0, 1] 1) 0 ∧
      (([1, 1] : List Nat).getD (rootOf [0, 1] 0) 0 <
          ([1, 1] : List Nat).getD (rootOf [0, 1] 1) 0 →
        uLoser [0, 1] [1, 1] 0 1 = rootOf [0, 1] 0 ∧
        uWinner [0, 1] [1, 1] 0 1 = rootOf [0, 1] 1) ∧
      (¬ ([1, 1] : List Nat).getD (rootOf [0, 1] 0) 0 <
          ([1, 1] : List Nat).getD (rootOf [0, 1] 1) 0 →
        uLoser [0, 1] [1, 1] 0 1 = rootOf [0, 1] 1 ∧
        uWinner [0, 1] [1, 1] 0 1 = rootOf [0, 1] 0)) ∧
    SizeInv (unionSites [0, 1] [1, 1] 0 1).1 (unionSites [0, 1] [1, 1] 0 1).2) := by
  have hwf : UFWF [0, 1] (fun _ => (0 : Int)) := by unfold UFWF; decide
  have hsi : SizeInv [0, 1] [1, 1] := by unfold SizeInv; decide
  have hs : ([1, 1] : List Nat).length = ([0, 1] : List Nat).length := by decide
  have hx : 0 < ([0, 1] : List Nat).length := by decide
  have hy : 1 < ([0, 1] : List Nat).length := by decide
  exact ⟨hwf, hs, hsi, hx, hy, C6_union_spec hwf hs hsi hx hy⟩

/-- Claim C7: on any grid, each of open, isOpen, and isFull fails iff row
or col lies outside [0, n), the error is always the index-out-of-bounds
message, and a failing call returns no successor state (the validation
precedes every mutation, so the grid is untouched). -/
theorem C7_validation (P : Percolation) (row col : Int) :
    ((∃ e, openE P row col = .error e) ↔
      ¬(0 ≤ row ∧ row < (P.n : Int) ∧ 0 ≤ col ∧ col < (P.n : Int))) ∧
    ((∃ e, isOpenE P row col = .error e) ↔
      ¬(0 ≤ row ∧ row < (P.n : Int) ∧ 0 ≤ col ∧ col < (P.n : Int))) ∧
    ((∃ e, isFullE P row col = .error e) ↔
      ¬(0 ≤ row ∧ row < (P.n : Int) ∧ 0 ≤ col ∧ col < (P.n : Int))) ∧
    (∀ e, openE P row col = .error e ∨ isOpenE P row col = .error e ∨
      isFullE P row col = .error e → e = "Index out of bounds") := by
  have hg : (row < 0 ∨ (P.n : Int) ≤ row ∨ col < 0 ∨ (P.n : Int) ≤ col) ↔
      ¬(0 ≤ row ∧ row < (P.n : Int) ∧ 0 ≤ col ∧ col < (P.n : Int)) := by omega
  by_cases hv : row < 0 ∨ (P.n : Int) ≤ row ∨ col < 0 ∨ (P.n : Int) ≤ col
  · refine ⟨⟨fun _ => hg.mp hv, fun _ => ⟨"Index out of bounds", ?_⟩⟩,
      ⟨fun _ => hg.mp hv, fun _ => ⟨"Index out of bounds", ?_⟩⟩,
      ⟨fun _ => hg.mp hv, fun _ => ⟨"Index out of bounds", ?_⟩⟩, ?_⟩
    · unfold openE
      rw [if_pos hv]
    · unfold isOpenE
      rw [if_pos hv]
    · unfold isFullE
      rw [if_pos hv]
    · intro e he
      rcases he with he | he | he
      · unfold openE at he
        rw [if_pos hv] at he
        exact (Except.error.inj he).symm
      · unfold isOpenE at he
        rw [if_pos hv] at he
        exact (Except.error.inj he).symm
      · unfold isFullE at he
        rw [if_pos hv] at he
        exact (Except.error.inj he).symm
  · have hb : 0 ≤ row ∧ row < (P.n : Int) ∧ 0 ≤ col ∧ col < (P.n : Int) := by omega
    have hno : ∀ e, ¬(openE P row col = .error e ∨ isOpenE P row col = .error e ∨
        isFullE P row col = .error e) := by
      intro e he
      rcases he with he | he | he
      · unfold openE at he
        rw [if_neg hv] at he
        by_cases hop : P.grid.getD ((row * P.n + col).toNat) false = true
        · rw [if_pos hop] at he
          exact Except.noConfusion he
        · rw [if_neg hop] at he
          exact Except.noConfusion he
      · unfold isOpenE at he
        rw [if_neg hv] at he
        exact Except.noConfusion he
      · unfold isFullE at he
        rw [if_neg hv] at he
        by_cases hop : P.grid.getD ((row * P.n + col).toNat) false = true
        · rw [if_pos hop] at he
          exact Except.noConfusion he
        · rw [if_neg hop] at he
          exact Except.noConfusion he
    refine ⟨⟨?_, fun hc => absurd hb hc⟩, ⟨?_, fun hc => absurd hb hc⟩,
      ⟨?_, fun hc => absurd hb hc⟩, fun e he => absurd he (hno e)⟩
    · rintro ⟨e, he⟩
      exact absurd (Or.inl he) (hno e)
    · rintro ⟨e, he⟩
      exact absurd (Or.inr (Or.inl he)) (hno e)
    · rintro ⟨e, he⟩
      exact absurd (Or.inr (Or.inr he)) (hno e)

theorem C7_validation_witness :
    ((∃ e, openE (initP 1) (-1) 0 = .error e) ↔
      ¬((0 : Int) ≤ -1 ∧ (-1 : Int) < ((initP 1).n : Int) ∧
        (0 : Int) ≤ 0 ∧ (0 : Int) < ((initP 1).n : Int))) ∧
    ((∃ e, isOpenE (initP 1) (-1) 0 = .error e) ↔
      ¬((0 : Int) ≤ -1 ∧ (-1 : Int) < ((initP 1).n : Int) ∧
        (0 : Int) ≤ 0 ∧ (0 : Int) < ((initP 1).n : Int))) ∧
    ((∃ e, isFullE (initP 1) (-1) 0 = .error e) ↔
      ¬((0 : Int) ≤ -1 ∧ (-1 : Int) < ((initP 1).n : Int) ∧
        (0 : Int) ≤ 0 ∧ (0 : Int) < ((initP 1).n : Int))) ∧
    (∀ e, openE (initP 1) (-1) 0 = .error e ∨ isOpenE (initP 1) (-1) 0 = .error e ∨
      isFullE (initP 1) (-1) 0 = .error e → e = "Index out of bounds") :=
  C7_validation (initP 1) (-1) 0

/-- Claim C8: the estimator constructor fails iff n ≤ 0 or trials ≤ 0;
the failure and its message are independent of the random stream and of
the trial budget, so the check happens before any trial runs; and the
grid constructor fails iff n ≤ 0. -/
theorem C8_constructor_validation (nI trials : Int) (stream : Nat → Nat × Nat)
    (fuel : Nat) :
    ((∃ e, mkPercolationStats nI trials stream fuel = .error e) ↔
      (nI ≤ 0 ∨ trials ≤ 0)) ∧
    (∀ e, mkPercolationStats nI trials stream fuel = .error e →
      ∀ stream2 fuel2, mkPercolationStats nI trials stream2 fuel2 = .error e) ∧
    ((∃ e, mkPercolation nI = .error e) ↔ nI ≤ 0) := by
  by_cases h1 : nI ≤ 0
  · refine ⟨⟨fun _ => Or.inl h1, fun _ => ⟨"Grid size n must be positive", ?_⟩⟩,
      ?_, ⟨fun _ => h1, fun _ => ⟨"Grid size must be positive", ?_⟩⟩⟩
    · unfold mkPercolationStats
      rw [if_pos h1]
    · intro e he stream2 fuel2
      unfold mkPercolationStats at he ⊢
      rw [if_pos h1] at he ⊢
      exact he
    · unfold mkPercolation
      rw [if_pos h1]
  · by_cases h2 : trials ≤ 0
    · refine ⟨⟨fun _ => Or.inr h2, fun _ => ⟨"Number of trials must be positive", ?_⟩⟩,
        ?_, ⟨?_, fun hc => absurd hc h1⟩⟩
      · unfold mkPercolationStats
        rw [if_neg h1, if_pos h2]
      · intro e he stream2 fuel2
        unfold mkPercolationStats at he ⊢
        rw [if_neg h1, if_pos h2] at he ⊢
        exact he
      · rintro ⟨e, he⟩
        unfold mkPercolation at he
        rw [if_neg h1] at he
        exact Except.noConfusion he
    · refine ⟨⟨?_, ?_⟩, ?_, ⟨?_, fun hc => absurd hc h1⟩⟩
      · rintro ⟨e, he⟩
        unfold mkPercolationStats at he
        rw [if_neg h1, if_neg h2] at he
        exact Except.noConfusion he
      · intro hc
        rcases hc with hc | hc
        · exact absurd hc h1
        · exact absurd hc h2
      · intro e he
        unfold mkPercolationStats at he
        rw [if_neg h1, if_neg h2] at he
        exact Except.noConfusion he
      · rintro ⟨e, he⟩
        unfold mkPercolation at he
        rw [if_neg h1] at he
        exact Except.noConfusion he

theorem C8_constructor_validation_witness :
    ((∃ e, mkPercolationStats (-1) 5 (fun _ => (0, 0)) 0 = .error e) ↔
      ((-1 : Int) ≤ 0 ∨ (5 : Int) ≤ 0)) ∧
    (∀ e, mkPercolationStats (-1) 5 (fun _ => (0, 0)) 0 = .error e →
      ∀ stream2 fuel2, mkPercolationStats (-1) 5 stream2 fuel2 = .error e) ∧
    ((∃ e, mkPercolation (-1) = .error e) ↔ (-1 : Int) ≤ 0) :=
  C8_constructor_validation (-1) 5 (fun _ => (0, 0)) 0

/-- Claim C10: the queries isOpen, isFull, percolates, and
numberOfOpenSites are observationally pure: run in any reachable state,
they preserve which union-find elements share a root (path compression
only reroutes chains inside a class), and the state they leave produces
the very same trace of results on every subsequent operation sequence. -/
theorem C10_query_purity {P : Percolation} (hR : Reachable P) {q : POp}
    (hq : IsQuery q) {ob : Obs} {P2 : Percolation}
    (h : stepE P q = .ok (ob, P2)) :
    (∀ z w, z < P.n * P.n + 2 → w < P.n * P.n + 2 →
      (rootOf P2.parent z = rootOf P2.parent w ↔
        rootOf P.parent z = rootOf P.parent w)) ∧
    ∀ ops, traceE P2 ops = traceE P ops := by
  have hI := reachable_inv hR
  cases q with
  | opn row col => exact hq.elim
  | qOpen row col =>
    simp only [stepE] at h
    cases hres : isOpenE P row col with
    | error e =>
      rw [hres] at h
      simp only [Except.map] at h
      exact Except.noConfusion h
    | ok v =>
      rw [hres] at h
      simp only [Except.map] at h
      injection h with h1
      have hP2 : P2 = P := (congrArg Prod.snd h1).symm
      subst hP2
      exact ⟨fun z w _ _ => Iff.rfl, fun ops => rfl⟩
  | qFull row col =>
    simp only [stepE] at h
    cases hres : isFullE P row col with
    | error e =>
      rw [hres] at h
      simp only [Except.map] at h
      exact Except.noConfusion h
    | ok bp =>
      rw [hres] at h
      simp only [Except.map] at h
      injection h with h1
      have hP2 : P2 = bp.2 := (congrArg Prod.snd h1).symm
      subst hP2
      have hok : isFullE P row col = .ok (bp.1, bp.2) := by rw [hres]
      obtain ⟨hI2, hn2, hg2, hs2, hc2, hpart, _⟩ := isFullE_ok hI hok
      exact ⟨hpart, fun ops => trace_obsEq ⟨hI2, hI, hn2, hg2, hc2⟩ ops⟩
  | qPerc =>
    simp only [stepE] at h
    injection h with h1
    have hP2 : P2 = (percolatesE P).2 := (congrArg Prod.snd h1).symm
    subst hP2
    obtain ⟨hI2, hn2, hg2, hs2, hc2, hpart, _⟩ := percolatesE_spec hI
    exact ⟨hpart, fun ops => trace_obsEq ⟨hI2, hI, hn2, hg2, hc2⟩ ops⟩
  | qCount =>
    simp only [stepE] at h
    injection h with h1
    have hP2 : P2 = P := (congrArg Prod.snd h1).symm
    subst hP2
    exact ⟨fun z w _ _ => Iff.rfl, fun ops => rfl⟩

theorem C10_query_purity_witness :
    Reachable Pw1 ∧ IsQuery POp.qPerc ∧
    stepE Pw1 POp.qPerc = .ok (Obs.b true, (percolatesE Pw1).2) ∧
    ((∀ z w, z < Pw1.n * Pw1.n + 2 → w < Pw1.n * Pw1.n + 2 →
      (rootOf (percolatesE Pw1).2.parent z = rootOf (percolatesE Pw1).2.parent w ↔
        rootOf Pw1.parent z = rootOf Pw1.parent w)) ∧
     ∀ ops, traceE (percolatesE Pw1).2 ops = traceE Pw1 ops) := by
  have hR : Reachable Pw1 :=
    Reachable.openStep 0 0 (Reachable.init 1 (by omega)) (by decide)
  have hq : IsQuery POp.qPerc := trivial
  have he : stepE Pw1 POp.qPerc = .ok (Obs.b true, (percolatesE Pw1).2) := by decide
  exact ⟨hR, hq, he, C10_query_purity hR hq he⟩


end Perc
